import Mathlib

/-!
Verification development for the AI grading tool.

This file gives a shallow embedding of the response-normalization pipeline of
`grading_service.py` (JSON extraction, `json.loads`, field normalization, the
regex fallback, and the canonical error result), of `process_single_file` from
`app.py`, and of `validate_file_type` from `helpers.py`, together with theorems
settling the stated properties of that code.

Modelling conventions:
- Python numbers (ints and floats) are modelled as exact rationals; the code
  under study only builds numbers with `+ * / min`, so the rational semantics
  is the ideal-arithmetic reading of those formulas.
- `json.loads` is modelled by an executable lexer plus token parser for the
  RFC 8259 grammar in strict mode, which is what the code relies on: raw
  control characters inside string literals are rejected, duplicate object
  keys keep the last binding, any JSON value may appear at top level, and
  trailing non-whitespace input is rejected.  Python's non-standard
  `NaN/Infinity` extension and surrogate-pair combining are outside the model.
- Python exceptions are modelled with `Except`/`Option`; the exact exception
  message text of runtime type errors is abbreviated to the exception class
  name, since the code only ever embeds it into a free-text feedback string.
- All recursion is structural (on an explicit fuel where needed) so that every
  definition evaluates inside the kernel.
-/

set_option maxRecDepth 16384

/-- A parsed JSON value, as produced by the model of `json.loads`. -/
inductive JsonValue where
  | null
  | bool (b : Bool)
  | num (q : ℚ)
  | str (s : String)
  | arr (elems : List JsonValue)
  | obj (members : List (String × JsonValue))

instance : Inhabited JsonValue := ⟨JsonValue.null⟩

/-- Python truthiness of a JSON-derived value: `None`, `False`, `0`, the empty
string, the empty list and the empty dict are falsy. -/
def truthy : JsonValue → Bool
  | .null => false
  | .bool b => b
  | .num q => decide (q ≠ 0)
  | .str s => decide (s ≠ "")
  | .arr xs => !xs.isEmpty
  | .obj kvs => !kvs.isEmpty

/-- Numeric view of a JSON-derived value, as used by Python arithmetic and
comparisons: numbers are themselves and booleans count as 0 or 1; every other
value raises a `TypeError` (here: `none`). -/
def asNum : JsonValue → Option ℚ
  | .num q => some q
  | .bool b => some (if b then 1 else 0)
  | _ => none

/-- Last-binding lookup in an association list, matching the fact that a Python
dict built by `json.loads` keeps the last value for a duplicated key. -/
def lookupLast (kvs : List (String × JsonValue)) (k : String) : Option JsonValue :=
  match kvs with
  | [] => none
  | (k0, v0) :: rest =>
    match lookupLast rest k with
    | some w => some w
    | none => if k0 = k then some v0 else none

/-- Model of `dict.get(k, default)` on a dict produced by `json.loads`. -/
def objGet (kvs : List (String × JsonValue)) (k : String) (dflt : JsonValue) : JsonValue :=
  match lookupLast kvs k with
  | some v => v
  | none => dflt

/-- First-occurrence key list of an association list, matching Python dict
iteration order (insertion order with later duplicates collapsed). -/
def dedupKeys : List (String × JsonValue) → List String → List String
  | [], _ => []
  | (k0, _) :: rest, seen =>
    if seen.contains k0 then dedupKeys rest seen
    else k0 :: dedupKeys rest (k0 :: seen)

/-- Model of Python iteration over a JSON-derived value: strings yield their
characters, lists their elements, dicts their keys; every other value raises a
`TypeError` (here: `none`). -/
def pyIter : JsonValue → Option (List JsonValue)
  | .str s => some (s.data.map (fun c => JsonValue.str (String.mk [c])))
  | .arr xs => some xs
  | .obj kvs => some ((dedupKeys kvs []).map JsonValue.str)
  | _ => none

/-- Decimal digit characters of a natural number, helper for `pyFStr`. -/
def natDigitsRev (fuel n : Nat) : List Char :=
  match fuel with
  | 0 => []
  | f + 1 =>
    if n < 10 then [Char.ofNat (n + 48)]
    else Char.ofNat (n % 10 + 48) :: natDigitsRev f (n / 10)

/-- Decimal rendering of an integer. -/
def intRepr (i : Int) : String :=
  match i with
  | .ofNat n => String.mk (natDigitsRev (n + 1) n).reverse
  | .negSucc m => String.mk ('-' :: (natDigitsRev (m + 2) (m + 1)).reverse)

/-- Model of Python `str()` on a JSON-derived value, used only inside f-string
interpolation for feedback text.  Integral numbers render exactly; the rare
non-integral or nested cases render approximately (no claim inspects them). -/
def pyFStr : JsonValue → String
  | .str s => s
  | .num q => if q.den = 1 then intRepr q.num else intRepr q.num ++ "/" ++ intRepr q.den
  | .bool b => if b then "True" else "False"
  | .null => "None"
  | .arr _ => "[...]"
  | .obj _ => "\x7b...\x7d"

/-! ### Character classes and low-level string helpers -/

/-- JSON whitespace (RFC 8259), also what Python's `json` scanner skips. -/
def isJsonWs (c : Char) : Bool :=
  c = ' ' || c = '\t' || c = '\n' || c = '\r'

/-- ASCII whitespace stripped by Python's `str.strip()` and matched by the
regex class `\s`. -/
def isPySpace (c : Char) : Bool :=
  c = ' ' || c = '\t' || c = '\n' || c = '\r' || c = '\x0b' || c = '\x0c'

/-- ASCII decimal digit, the `\d` of the fallback regex. -/
def isDigitChar (c : Char) : Bool :=
  48 ≤ c.toNat && c.toNat ≤ 57

/-- Numeric value of a digit run, as computed by Python `int()`. -/
def natOfDigits (ds : List Char) : Nat :=
  ds.foldl (fun acc c => acc * 10 + (c.toNat - 48)) 0

/-- Model of Python `str.strip()` (ASCII whitespace on both ends). -/
def pyStripChars (cs : List Char) : List Char :=
  ((cs.dropWhile isPySpace).reverse.dropWhile isPySpace).reverse

/-- String-level wrapper of `pyStripChars`. -/
def pyStrip (s : String) : String :=
  String.mk (pyStripChars s.data)

/-- Character-list prefix test. -/
def startsWithChars : List Char → List Char → Bool
  | [], _ => true
  | _ :: _, [] => false
  | p :: ps, c :: cs => p = c && startsWithChars ps cs

/-- Index of the first occurrence of `pat` in `hay` (substring search, the
model of `re.search` for a literal pattern and of `str.find` for strings). -/
def findSub (pat : List Char) : List Char → Option Nat
  | [] => if pat.isEmpty then some 0 else none
  | c :: rest =>
    if startsWithChars pat (c :: rest) then some 0
    else (findSub pat rest).map (· + 1)

/-- First index of character `c`, the model of `str.find` on a single char. -/
def pyFindChar (cs : List Char) (c : Char) : Option Nat :=
  findSub [c] cs

/-- Last index of character `c`, the model of `str.rfind` on a single char. -/
def pyRFindChar (cs : List Char) (c : Char) : Option Nat :=
  (findSub [c] cs.reverse).map (fun i => cs.length - 1 - i)

/-! ### The lexer of the `json.loads` model -/

/-- Tokens of the JSON grammar. -/
inductive JTok where
  | lbrace
  | rbrace
  | lbrack
  | rbrack
  | colon
  | comma
  | jnull
  | jtrue
  | jfalse
  | jstr (s : String)
  | jnum (q : ℚ)

/-- Hexadecimal digit value. -/
def hexDigit (c : Char) : Option Nat :=
  if 48 ≤ c.toNat && c.toNat ≤ 57 then some (c.toNat - 48)
  else if 97 ≤ c.toNat && c.toNat ≤ 102 then some (c.toNat - 97 + 10)
  else if 65 ≤ c.toNat && c.toNat ≤ 70 then some (c.toNat - 65 + 10)
  else none

/-- Single-character JSON string escapes. -/
def jsonEscape : Char → Option Char
  | '"' => some '"'
  | '\\' => some '\\'
  | '/' => some '/'
  | 'b' => some '\x08'
  | 'f' => some '\x0c'
  | 'n' => some '\n'
  | 'r' => some '\r'
  | 't' => some '\t'
  | _ => none

/-- Body of a JSON string literal, after the opening quote.  Strict mode: a raw
control character (code below 32) is rejected, exactly as Python's default
`json.loads` does.  Structural on an explicit fuel (one unit per consumed
chunk, so `length + 1` always suffices). -/
def lexStrBody (fuel : Nat) (acc : List Char) (cs : List Char) : Option (String × List Char) :=
  match fuel with
  | 0 => none
  | f + 1 =>
    match cs with
    | [] => none
    | '"' :: rest => some (String.mk acc.reverse, rest)
    | '\\' :: 'u' :: a :: b :: c :: d :: rest =>
      (match hexDigit a, hexDigit b, hexDigit c, hexDigit d with
       | some va, some vb, some vc, some vd =>
         lexStrBody f (Char.ofNat (((va * 16 + vb) * 16 + vc) * 16 + vd) :: acc) rest
       | _, _, _, _ => none)
    | '\\' :: e :: rest =>
      (match jsonEscape e with
       | some ch => lexStrBody f (ch :: acc) rest
       | none => none)
    | c :: rest =>
      if c.toNat < 32 then none else lexStrBody f (c :: acc) rest

/-- Exact rational value of a JSON number literal given its parts. -/
def jsonNumVal (neg : Bool) (intDs fracDs : List Char) (exp : Int) : ℚ :=
  let mant : ℚ := ((natOfDigits (intDs ++ fracDs) : Int) : ℚ)
  let signed : ℚ := if neg then -mant else mant
  let scale : Int := exp - (fracDs.length : Int)
  if scale = 0 then signed
  else if 0 ≤ scale then signed * (10 : ℚ) ^ scale.toNat
  else signed / (10 : ℚ) ^ (-scale).toNat

/-- Fraction part of a JSON number literal: consumes `.digits` only when at
least one digit follows the dot, as the scanner regex
`(\.[0-9]+)?` does, and returns the digits with the remaining input. -/
def lexFracPart (r : List Char) : List Char × List Char :=
  match r with
  | '.' :: d :: rr =>
    if isDigitChar d then ((d :: rr).takeWhile isDigitChar, (d :: rr).dropWhile isDigitChar)
    else ([], r)
  | _ => ([], r)

/-- Exponent part of a JSON number literal: consumes `[eE][-+]?digits` only
when complete, as the scanner regex `([eE][-+]?[0-9]+)?` does. -/
def lexExpPart (r2 : List Char) : Int × List Char :=
  match r2 with
  | e :: rest =>
    if e = 'e' || e = 'E' then
      match rest with
      | '+' :: d :: rr =>
        if isDigitChar d then
          ((natOfDigits ((d :: rr).takeWhile isDigitChar) : Int), (d :: rr).dropWhile isDigitChar)
        else (0, r2)
      | '-' :: d :: rr =>
        if isDigitChar d then
          (-(natOfDigits ((d :: rr).takeWhile isDigitChar) : Int), (d :: rr).dropWhile isDigitChar)
        else (0, r2)
      | d :: rr =>
        if isDigitChar d then
          ((natOfDigits ((d :: rr).takeWhile isDigitChar) : Int), (d :: rr).dropWhile isDigitChar)
        else (0, r2)
      | [] => (0, r2)
    else (0, r2)
  | [] => (0, r2)

/-- Fraction and exponent parts after the integer digits of a number literal,
and the literal's exact value. -/
def lexNumTail (neg : Bool) (intDs : List Char) (r : List Char) : ℚ × List Char :=
  let fr := lexFracPart r
  let ex := lexExpPart fr.2
  (jsonNumVal neg intDs fr.1 ex.1, ex.2)

/-- Integer digits of a JSON number literal after the optional sign: a lone
`0`, or a nonzero digit followed by more digits, per the scanner regex
`(0|[1-9][0-9]*)`. -/
def lexNumBody (neg : Bool) (cs1 : List Char) : Option (ℚ × List Char) :=
  match cs1 with
  | '0' :: r0 => some (lexNumTail neg ['0'] r0)
  | c :: r0 =>
    if isDigitChar c then
      some (lexNumTail neg ((c :: r0).takeWhile isDigitChar) ((c :: r0).dropWhile isDigitChar))
    else none
  | [] => none

/-- Lexes a JSON number, mirroring the regex used by Python's scanner:
`-?(0|[1-9][0-9]*)(\.[0-9]+)?([eE][-+]?[0-9]+)?` with maximal munch and
component-wise backtracking. -/
def lexNumber (cs : List Char) : Option (ℚ × List Char) :=
  match cs with
  | '-' :: cs1 => lexNumBody true cs1
  | _ => lexNumBody false cs

/-- Lexes one token from a non-blank position. -/
def lex1 (cs : List Char) : Option (JTok × List Char) :=
  match cs with
  | '\x7b' :: r => some (.lbrace, r)
  | '\x7d' :: r => some (.rbrace, r)
  | '[' :: r => some (.lbrack, r)
  | ']' :: r => some (.rbrack, r)
  | ':' :: r => some (.colon, r)
  | ',' :: r => some (.comma, r)
  | 'n' :: 'u' :: 'l' :: 'l' :: r => some (.jnull, r)
  | 't' :: 'r' :: 'u' :: 'e' :: r => some (.jtrue, r)
  | 'f' :: 'a' :: 'l' :: 's' :: 'e' :: r => some (.jfalse, r)
  | '"' :: r =>
    (match lexStrBody (r.length + 1) [] r with
     | some (s, r1) => some (.jstr s, r1)
     | none => none)
  | c :: _ =>
    if c = '-' || isDigitChar c then
      match lexNumber cs with
      | some (q, r1) => some (.jnum q, r1)
      | none => none
    else none
  | [] => none

/-- Fueled tokenizer: skips JSON whitespace and lexes tokens to end of input. -/
def lexAll (fuel : Nat) (cs : List Char) : Option (List JTok) :=
  match fuel with
  | 0 => none
  | f + 1 =>
    let cs1 := cs.dropWhile isJsonWs
    match cs1 with
    | [] => some []
    | _ :: _ =>
      match lex1 cs1 with
      | none => none
      | some (t, rest) =>
        match lexAll f rest with
        | some ts => some (t :: ts)
        | none => none

/-! ### The token parser of the `json.loads` model -/

/-- Parsing modes of the single recursive descent function: a value, the tail
of an array after at least one element, a pending `key : value` member, or the
tail of an object after at least one member. -/
inductive PMode where
  | value
  | arrTail (acc : List JsonValue)
  | objMember (acc : List (String × JsonValue))
  | objTail (acc : List (String × JsonValue))

/-- Recursive descent over the token list, structural on fuel. -/
def parseP (fuel : Nat) (mode : PMode) (ts : List JTok) : Option (JsonValue × List JTok) :=
  match fuel with
  | 0 => none
  | f + 1 =>
    match mode, ts with
    | .value, .jnull :: r => some (.null, r)
    | .value, .jtrue :: r => some (.bool true, r)
    | .value, .jfalse :: r => some (.bool false, r)
    | .value, .jstr s :: r => some (.str s, r)
    | .value, .jnum q :: r => some (.num q, r)
    | .value, .lbrack :: .rbrack :: r => some (.arr [], r)
    | .value, .lbrack :: r =>
      (match parseP f .value r with
       | some (v, r1) => parseP f (.arrTail [v]) r1
       | none => none)
    | .value, .lbrace :: .rbrace :: r => some (.obj [], r)
    | .value, .lbrace :: r => parseP f (.objMember []) r
    | .arrTail acc, .comma :: r =>
      (match parseP f .value r with
       | some (v, r1) => parseP f (.arrTail (acc ++ [v])) r1
       | none => none)
    | .arrTail acc, .rbrack :: r => some (.arr acc, r)
    | .objMember acc, .jstr k :: .colon :: r =>
      (match parseP f .value r with
       | some (v, r1) => parseP f (.objTail (acc ++ [(k, v)])) r1
       | none => none)
    | .objTail acc, .comma :: r => parseP f (.objMember acc) r
    | .objTail acc, .rbrace :: r => some (.obj acc, r)
    | _, _ => none

/-- Model of Python `json.loads`: tokenize, parse one value, and require that
nothing but whitespace follows. -/
def json_loads (s : String) : Option JsonValue :=
  match lexAll (s.data.length + 1) s.data with
  | none => none
  | some ts =>
    match parseP (ts.length + 1) .value ts with
    | some (v, []) => some v
    | _ => none

/-! ### The grading result shape and the canonical error result -/

/-- The fixed result shape built by `_parse_grading_response`,
`_fallback_text_parsing` and `_create_error_result` in `grading_service.py`.
Fields that Python fills with arbitrary JSON-derived values are `JsonValue`;
`feedback` is always a string on every path of the source. -/
structure GradingResult where
  total_score : JsonValue
  percentage : JsonValue
  feedback : String
  criteria_scores : JsonValue
  questions : JsonValue
  strengths : JsonValue
  areas_for_improvement : JsonValue
  grade_justification : JsonValue

/-- Model of `GradingService._create_error_result`. -/
def _create_error_result (error_message : String) : GradingResult where
  total_score := .num 0
  percentage := .num 0
  feedback := "Error during grading: " ++ error_message
  criteria_scores := .obj []
  questions := .arr []
  strengths := .arr []
  areas_for_improvement := .arr []
  grade_justification := .str "Grading failed due to technical error."

/-! ### Model of `GradingService._combine_feedback` -/

/-- Bullet list rendering, the `"\n".join(f"• ..." for ...)` of the source. -/
def bulletJoin (xs : List JsonValue) : String :=
  String.intercalate "\n" (xs.map (fun x => "• " ++ pyFStr x))

/-- One optional bulleted feedback section: skipped when the value is falsy,
a `TypeError` when a truthy value cannot be iterated. -/
def sectionPart (v : JsonValue) (header : String) : Except String (List JsonValue) :=
  if truthy v then
    match pyIter v with
    | some xs => .ok [.str (header ++ bulletJoin xs)]
    | none => .error "TypeError"
  else .ok []

/-- Final `"\n\n".join`: every collected part must be a string, otherwise
Python raises a `TypeError` (only the raw `overall_feedback` part can be
non-string). -/
def partsToStrs : List JsonValue → Option (List String)
  | [] => some []
  | .str s :: rest => (partsToStrs rest).map (fun ss => s :: ss)
  | _ :: _ => none

/-- Model of `GradingService._combine_feedback`: collects overall feedback,
bulleted strengths and improvement areas, and the justification, then joins
them; any Python `TypeError` on the way is an `.error`. -/
def _combine_feedback (kvs : List (String × JsonValue)) : Except String String :=
  let ov := objGet kvs "overall_feedback" .null
  let parts1 : List JsonValue := if truthy ov then [ov] else []
  match sectionPart (objGet kvs "strengths" .null) "**Strengths:**\n" with
  | .error e => .error e
  | .ok p2 =>
    match sectionPart (objGet kvs "areas_for_improvement" .null) "**Areas for Improvement:**\n" with
    | .error e => .error e
    | .ok p3 =>
      let gj := objGet kvs "grade_justification" .null
      let p4 : List JsonValue :=
        if truthy gj then [.str ("**Grade Justification:**\n" ++ pyFStr gj)] else []
      match partsToStrs (parts1 ++ p2 ++ p3 ++ p4) with
      | some ss => .ok (String.intercalate "\n\n" ss)
      | none => .error "TypeError"

/-! ### Model of the normalization step of `_parse_grading_response` -/

/-- Python `min(x, total_marks)` on the reply's `total_score`: numbers and
booleans compare through their numeric value and the smaller OBJECT is kept
(`total_marks` itself when it is strictly smaller); any other value raises a
`TypeError` (here `none`). -/
def pyMinScore (x : JsonValue) (m : ℚ) : Option JsonValue :=
  match asNum x with
  | some q => some (if m < q then JsonValue.num m else x)
  | none => none

/-- The `try`-body of `_parse_grading_response` after `json.loads` succeeded:
builds the normalized dict and recomputes the percentage when the clamped
score is positive.  `.error` collects every Python exception of the body
(`AttributeError` when the parsed value is not a dict, `TypeError` from `min`
or from `_combine_feedback`). -/
def normalize_grading_data (d : JsonValue) (total_marks : ℚ) : Except String GradingResult :=
  match d with
  | .obj kvs =>
    (match pyMinScore (objGet kvs "total_score" (.num 0)) total_marks with
     | none => .error "TypeError"
     | some ts =>
       match _combine_feedback kvs with
       | .error e => .error e
       | .ok fb =>
         let base : GradingResult :=
           { total_score := ts
             percentage := objGet kvs "percentage" (.num 0)
             feedback := fb
             criteria_scores := objGet kvs "criteria_scores" (.obj [])
             questions := objGet kvs "questions" (.arr [])
             strengths := objGet kvs "strengths" (.arr [])
             areas_for_improvement := objGet kvs "areas_for_improvement" (.arr [])
             grade_justification := objGet kvs "grade_justification" (.str "") }
         let tq := (asNum ts).getD 0
         if 0 < tq then .ok { base with percentage := .num (tq / total_marks * 100) }
         else .ok base)
  | _ => .error "AttributeError"

/-! ### Model of the JSON extraction step of `_parse_grading_response` -/

/-- Characters of the opening fence literal of the extraction regex. -/
def fenceOpenChars : List Char := "```json\n".data

/-- Characters of the closing fence literal of the extraction regex. -/
def fenceCloseChars : List Char := "\n```".data

/-- Model of `re.search('```json\n(.*?)\n```', response, re.DOTALL)`: the
match starts at the first occurrence of the opening literal and the lazy
group ends at the first following occurrence of the closing literal. -/
def fence_match (cs : List Char) : Option (List Char) :=
  match findSub fenceOpenChars cs with
  | none => none
  | some i =>
    let tail := cs.drop (i + fenceOpenChars.length)
    match findSub fenceCloseChars tail with
    | none => none
    | some k => some (tail.take k)

/-- The JSON-content selection of `_parse_grading_response`: fenced block if
present, else the slice from the first opening brace to the last closing
brace, else the whole (stripped) reply. -/
def extract_json_content (resp : String) : String :=
  let cs := resp.data
  match fence_match cs with
  | some inner => String.mk inner
  | none =>
    match pyFindChar cs '\x7b', pyRFindChar cs '\x7d' with
    | some st, some en =>
      if st < en + 1 then String.mk ((cs.drop st).take (en + 1 - st)) else resp
    | _, _ => resp

/-! ### Model of `GradingService._fallback_text_parsing` -/

/-- Characters matched by `[:\s]` in the fallback regex. -/
def isScoreSep (c : Char) : Bool :=
  c = ':' || isPySpace c

/-- Case-insensitive literal prefix test (the subject character is lowered,
the pattern is already lowercase). -/
def startsWithLower : List Char → List Char → Bool
  | [], _ => true
  | _ :: _, [] => false
  | p :: ps, c :: cs => c.toLower = p && startsWithLower ps cs

/-- After a keyword of the fallback regex: `[:\s]*(\d+)(?:/(\d+))?`.  The
separator run is consumed greedily, at least one digit is required, and the
optional `/digits` group is taken only when complete. -/
def tryBodyAt (r : List Char) : Option (Nat × Option Nat) :=
  let r1 := r.dropWhile isScoreSep
  let ds := r1.takeWhile isDigitChar
  match ds with
  | [] => none
  | _ :: _ =>
    let g1 := natOfDigits ds
    let r2 := r1.dropWhile isDigitChar
    match r2 with
    | '/' :: r3 =>
      (match r3.takeWhile isDigitChar with
       | [] => some (g1, none)
       | ds2 => some (g1, some (natOfDigits ds2)))
    | _ => some (g1, none)

/-- One attempt of `(?:score|marks?)[:\s]*(\d+)(?:/(\d+))?` anchored at the
current position, with the regex alternation order (`score`, then `marks`,
then `mark`). -/
def tryKeywordAt (cs : List Char) : Option (Nat × Option Nat) :=
  if startsWithLower "score".data cs then tryBodyAt (cs.drop 5)
  else if startsWithLower "marks".data cs then
    match tryBodyAt (cs.drop 5) with
    | some res => some res
    | none => tryBodyAt (cs.drop 4)
  else if startsWithLower "mark".data cs then tryBodyAt (cs.drop 4)
  else none

/-- Leftmost match of the fallback score regex (`re.search` semantics). -/
def searchScore : List Char → Option (Nat × Option Nat)
  | [] => none
  | c :: rest =>
    match tryKeywordAt (c :: rest) with
    | some r => some r
    | none => searchScore rest

/-- The shared result dict of `_fallback_text_parsing`. -/
def fallbackResult (score : ℚ) (response : String) (total_marks : ℚ) : GradingResult where
  total_score := .num score
  percentage := .num (if 0 < total_marks then score / total_marks * 100 else 0)
  feedback := response
  criteria_scores := .obj []
  questions := .arr []
  strengths := .arr []
  areas_for_improvement := .arr []
  grade_justification := .str "Grading performed using fallback text analysis."

/-- The `try`-body of `_fallback_text_parsing`: extract, rescale when the
detected maximum differs from `total_marks` (a `ZeroDivisionError` when that
maximum is zero), and clamp from above. -/
def fallbackBody (response : String) (total_marks : ℚ) : Except String GradingResult :=
  match searchScore response.data with
  | some (g1, g2) =>
    let score0 : ℚ := (g1 : ℚ)
    let max_score : ℚ := match g2 with | some m2 => (m2 : ℚ) | none => total_marks
    if max_score = total_marks then .ok (fallbackResult (min score0 total_marks) response total_marks)
    else if max_score = 0 then .error "ZeroDivisionError"
    else .ok (fallbackResult (min (score0 / max_score * total_marks) total_marks) response total_marks)
  | none => .ok (fallbackResult 0 response total_marks)

/-- Model of `GradingService._fallback_text_parsing`: the body's exceptions
collapse to the canonical error result. -/
def _fallback_text_parsing (response : String) (total_marks : ℚ) : GradingResult :=
  match fallbackBody response total_marks with
  | .ok r => r
  | .error _ => _create_error_result "Failed to parse grading response"

/-! ### Model of `GradingService._parse_grading_response` -/

/-- Model of `_parse_grading_response`: strip, extract the JSON content,
parse it; on a parse failure fall back to text parsing of the stripped reply,
and on any other exception return the canonical error result. -/
def _parse_grading_response (response : String) (total_marks : ℚ) : GradingResult :=
  let resp := pyStrip response
  match json_loads (extract_json_content resp) with
  | none => _fallback_text_parsing resp total_marks
  | some d =>
    match normalize_grading_data d total_marks with
    | .ok r => r
    | .error e => _create_error_result e

/-! ### Model of `_call_gemini_api` and `grade_assignment` -/

/-- Outcome of the one HTTP POST of `_call_gemini_api`: a network exception,
some other exception, or a response with a status code and a JSON body. -/
inductive ApiOutcome where
  | netError (msg : String)
  | otherError (msg : String)
  | httpResponse (status : Nat) (body : JsonValue)

/-- Key membership test, Python `k in d`. -/
def containsKey (kvs : List (String × JsonValue)) (k : String) : Bool :=
  (lookupLast kvs k).isSome

/-- The candidate-text extraction of `_call_gemini_api` on a 200 response:
`candidates[0]['content']['parts'][0]['text']` guarded by truthiness and key
membership.  Shapes on which the Python expression raises (and is caught,
returning `None`) or returns a non-string are collapsed to `none`, which is
exactly the value `grade_assignment` then sees. -/
def extractCandidateText (body : JsonValue) : Option String :=
  match body with
  | .obj kvs =>
    (match objGet kvs "candidates" (.arr []) with
     | .arr (c0 :: _) =>
       (match c0 with
        | .obj c0kvs =>
          if containsKey c0kvs "content" then
            match objGet c0kvs "content" .null with
            | .obj ckvs =>
              (match objGet ckvs "parts" (.arr []) with
               | .arr (p0 :: _) =>
                 (match p0 with
                  | .obj pkvs =>
                    if containsKey pkvs "text" then
                      match objGet pkvs "text" .null with
                      | .str s => some s
                      | _ => none
                    else none
                  | _ => none)
               | _ => none)
            | _ => none
          else none
        | _ => none)
     | _ => none)
  | _ => none

/-- Model of `GradingService._call_gemini_api`: `None` on a network or other
exception and on a non-200 status, else the extracted candidate text. -/
def _call_gemini_api (outcome : ApiOutcome) : Option String :=
  match outcome with
  | .netError _ => none
  | .otherError _ => none
  | .httpResponse status body =>
    if status = 200 then extractCandidateText body else none

/-- Model of `GradingService.grade_assignment`: an error result when the API
key is missing, when the call yields no (or a falsy, empty) reply; otherwise
the parsed reply. -/
def grade_assignment (api_key : String) (outcome : ApiOutcome) (total_marks : ℚ) : GradingResult :=
  if api_key = "" then _create_error_result "Gemini API key not configured"
  else
    match _call_gemini_api outcome with
    | some resp =>
      if resp = "" then _create_error_result "Failed to get response from Gemini AI"
      else _parse_grading_response resp total_marks
    | none => _create_error_result "Failed to get response from Gemini AI"

/-! ### Model of `helpers.validate_file_type` -/

/-- Extension part (with its dot) of `os.path.splitext` on POSIX: the slice
from the last dot, provided it lies after the last separator and the base
name does not consist of leading dots only. -/
def splitextExt (p : List Char) : List Char :=
  let sepIdx : Int := match pyRFindChar p '/' with | some i => (i : Int) | none => -1
  let dotIdx : Int := match pyRFindChar p '.' with | some i => (i : Int) | none => -1
  if sepIdx < dotIdx then
    let mid := (p.drop (sepIdx + 1).toNat).take (dotIdx - sepIdx - 1).toNat
    if mid.any (fun c => decide (c ≠ '.')) then p.drop dotIdx.toNat else []
  else []

/-- The lowercased, dot-stripped extension key that `validate_file_type`
looks up. -/
def fileExtKey (filename : String) : String :=
  String.mk ((splitextExt (filename.data.map Char.toLower)).dropWhile (fun c => c = '.'))

/-- The `supported_types` mapping of `validate_file_type` (`doc` is graded as
`docx`). -/
def supported_types (e : String) : Option String :=
  if e = "pdf" then some "pdf"
  else if e = "docx" then some "docx"
  else if e = "doc" then some "docx"
  else if e = "jpg" then some "jpg"
  else if e = "jpeg" then some "jpeg"
  else if e = "png" then some "png"
  else none

/-- Model of `helpers.validate_file_type`. -/
def validate_file_type (filename : String) : Option String :=
  if filename = "" then none
  else supported_types (fileExtKey filename)

/-! ### Model of `app.process_single_file` -/

/-- The per-file result dict of `process_single_file`.  `file_type` is kept
optional because the happy path stores the raw `validate_file_type` result. -/
structure FileResult where
  filename : String
  file_type : Option String
  total_marks : ℚ
  awarded_marks : JsonValue
  percentage : ℚ
  feedback : String
  criteria_breakdown : JsonValue
  questions : JsonValue
  text_content : String

/-- Python `file_type or 'unknown'`. -/
def orUnknown (ft : Option String) : Option String :=
  match ft with
  | some t => if t = "" then some "unknown" else some t
  | none => some "unknown"

/-- The except-branch result dict of `process_single_file`. -/
def errorFileResult (filename : String) (ft : Option String) (total_marks : ℚ)
    (msg : String) : FileResult where
  filename := filename
  file_type := orUnknown ft
  total_marks := total_marks
  awarded_marks := .num 0
  percentage := 0
  feedback := "Error processing file: " ++ msg
  criteria_breakdown := .obj []
  questions := .arr []
  text_content := "Error occurred during processing"

/-- The empty-extraction result dict of `process_single_file`. -/
def noContentFileResult (filename : String) (ft : Option String) (total_marks : ℚ) : FileResult where
  filename := filename
  file_type := orUnknown ft
  total_marks := total_marks
  awarded_marks := .num 0
  percentage := 0
  feedback := "No text content could be extracted from this file."
  criteria_breakdown := .obj []
  questions := .arr []
  text_content := "No content available"

/-- Python `file_type in ['jpg', 'jpeg', 'png']`. -/
def isImageType (ft : Option String) : Bool :=
  ft = some "jpg" || ft = some "jpeg" || ft = some "png"

/-- Model of `app.process_single_file`.  The two extraction services and the
grading call are passed in as outcomes (`Except` models a raised exception);
the body's own division by `total_marks` can also raise, and every exception
is caught into `errorFileResult`. -/
def process_single_file (filename : String) (total_marks : ℚ)
    (ocrOutcome extractOutcome : Except String String)
    (gradeOutcome : Except String GradingResult) : FileResult :=
  let ft := validate_file_type filename
  match (if isImageType ft then ocrOutcome else extractOutcome) with
  | .error e => errorFileResult filename ft total_marks e
  | .ok text =>
    if text = "" ∨ pyStrip text = "" then noContentFileResult filename ft total_marks
    else
      match gradeOutcome with
      | .error e => errorFileResult filename ft total_marks e
      | .ok g =>
        match asNum g.total_score with
        | none => errorFileResult filename ft total_marks "TypeError"
        | some ts =>
          if total_marks = 0 then errorFileResult filename ft total_marks "ZeroDivisionError"
          else
            { filename := filename
              file_type := ft
              total_marks := total_marks
              awarded_marks := g.total_score
              percentage := ts / total_marks * 100
              feedback := g.feedback
              criteria_breakdown := g.criteria_scores
              questions := g.questions
              text_content :=
                if 500 < text.length then String.mk (text.data.take 500) ++ "..." else text }

/-- Spec-side accepted extension set, taken from the spec sentence `Upload
accepts file types: pdf, docx, doc, jpg, jpeg, png`, to be compared with the
`supported_types` table of the source. -/
def specAccepted (e : String) : Bool :=
  e == "pdf" || e == "docx" || e == "doc" || e == "jpg" || e == "jpeg" || e == "png"

/-- A character list is pair-free when no newline is immediately followed by a
backtick; this is the shape of input on which the closing-fence literal
`"\n```"` cannot occur. -/
def pairFree : List Char → Bool
  | [] => true
  | [_] => true
  | a :: b :: rest => !(a = '\n' && b = '`') && pairFree (b :: rest)

/-- The fenced wrapper of claim C4. -/
def fenceWrap (j : String) : String :=
  "```json\n" ++ j ++ "\n```"

/-- The last token consumed while parsing a given value (the value's own
token for scalars, the closing bracket or brace for containers). -/
def selfTok : JsonValue → JTok
  | .null => .jnull
  | .bool true => .jtrue
  | .bool false => .jfalse
  | .str s => .jstr s
  | .num q => .jnum q
  | .arr _ => .rbrack
  | .obj _ => .rbrace

/-! ### Shared lemmas about the normalization and fallback paths -/

/-- Inversion of `pyMinScore`: a successful clamp yields a numeric value that
is at most `total_marks`. -/
theorem pyMinScore_spec (x : JsonValue) (m : ℚ) (ts : JsonValue)
    (h : pyMinScore x m = some ts) :
    ∃ q, asNum ts = some q ∧ q ≤ m := by
  unfold pyMinScore at h
  cases hx : asNum x with
  | none => rw [hx] at h; exact absurd h (by simp)
  | some q0 =>
    rw [hx] at h
    simp only [Option.some.injEq] at h
    by_cases hlt : m < q0
    · refine ⟨m, ?_, le_refl m⟩
      rw [← h, if_pos hlt]
      rfl
    · refine ⟨q0, ?_, le_of_not_lt hlt⟩
      rw [← h, if_neg hlt]
      exact hx

/-- When the reply's score is a number at most `total_marks`, the clamp keeps
the reply's own value object. -/
theorem pyMinScore_of_le (x : JsonValue) (m s : ℚ)
    (hx : asNum x = some s) (hle : s ≤ m) :
    pyMinScore x m = some x := by
  unfold pyMinScore
  rw [hx]
  simp only [Option.some.injEq]
  rw [if_neg (not_lt.mpr hle)]

/-- A successful normalization gives a numeric clamped score bounded above by
`total_marks`. -/
theorem normalize_ok_score_le (d : JsonValue) (m : ℚ) (r : GradingResult)
    (h : normalize_grading_data d m = .ok r) :
    ∃ q, asNum r.total_score = some q ∧ q ≤ m := by
  cases d with
  | obj kvs =>
    simp only [normalize_grading_data] at h
    cases hmin : pyMinScore (objGet kvs "total_score" (.num 0)) m with
    | none => rw [hmin] at h; exact absurd h (by simp)
    | some ts =>
      rw [hmin] at h
      dsimp only at h
      cases hfb : _combine_feedback kvs with
      | error e => rw [hfb] at h; exact absurd h (by simp)
      | ok fb =>
        rw [hfb] at h
        dsimp only at h
        obtain ⟨q, hq, hle⟩ := pyMinScore_spec _ _ _ hmin
        refine ⟨q, ?_, hle⟩
        split at h <;>
          (simp only [Except.ok.injEq] at h
           rw [← h]
           exact hq)
  | null => exact absurd h (by simp [normalize_grading_data])
  | bool b => exact absurd h (by simp [normalize_grading_data])
  | num q => exact absurd h (by simp [normalize_grading_data])
  | str s => exact absurd h (by simp [normalize_grading_data])
  | arr xs => exact absurd h (by simp [normalize_grading_data])

/-- The fallback result always carries a numeric score, and for a nonnegative
`total_marks` that score is clamped into `0 .. total_marks`. -/
theorem fallback_score_bounds (resp : String) (m : ℚ) (hm : 0 ≤ m) :
    ∃ q, asNum ((_fallback_text_parsing resp m).total_score) = some q ∧ 0 ≤ q ∧ q ≤ m := by
  unfold _fallback_text_parsing fallbackBody
  cases hs : searchScore resp.data with
  | none => exact ⟨0, rfl, le_refl 0, hm⟩
  | some p =>
    obtain ⟨g1, g2⟩ := p
    cases g2 with
    | none =>
      dsimp only
      rw [if_pos rfl]
      exact ⟨min ((g1 : ℚ)) m, rfl, le_min (by positivity) hm, min_le_right _ _⟩
    | some m2 =>
      dsimp only
      by_cases h1 : ((m2 : ℚ)) = m
      · rw [if_pos h1]
        exact ⟨min ((g1 : ℚ)) m, rfl, le_min (by positivity) hm, min_le_right _ _⟩
      · rw [if_neg h1]
        by_cases h0 : ((m2 : ℚ)) = 0
        · rw [if_pos h0]
          exact ⟨0, rfl, le_refl 0, hm⟩
        · rw [if_neg h0]
          have hpos : (0 : ℚ) < (m2 : ℚ) :=
            lt_of_le_of_ne (by positivity) (Ne.symm h0)
          exact ⟨min ((g1 : ℚ) / (m2 : ℚ) * m) m, rfl,
            le_min (mul_nonneg (div_nonneg (by positivity) hpos.le) hm) hm,
            min_le_right _ _⟩

/-! ### Claim C5: fallback extraction of `score: 7/10` at `total_marks = 20` -/

/-- C5 (amended): for every reply whose leftmost fallback-regex match extracts
score 7 with maximum 10, fallback parsing at `total_marks = 20` rescales by
`(7/10)*20` and returns `total_score = 14` with `percentage = 70`. -/
theorem c5_fallback_rescale (resp : String)
    (h : searchScore resp.data = some (7, some 10)) :
    (_fallback_text_parsing resp 20).total_score = .num 14 ∧
    (_fallback_text_parsing resp 20).percentage = .num 70 := by
  unfold _fallback_text_parsing fallbackBody
  rw [h]
  dsimp only
  rw [if_neg (by norm_num), if_neg (by norm_num)]
  have hscore : ((7 : Nat) : ℚ) / ((10 : Nat) : ℚ) * 20 = 14 := by norm_num
  have hmin : min (((7 : Nat) : ℚ) / ((10 : Nat) : ℚ) * 20) 20 = 14 := by
    rw [hscore]; norm_num
  constructor
  · show JsonValue.num (min (((7 : Nat) : ℚ) / ((10 : Nat) : ℚ) * 20) 20) = JsonValue.num 14
    rw [hmin]
  · show JsonValue.num
      (if (0 : ℚ) < 20 then min (((7 : Nat) : ℚ) / ((10 : Nat) : ℚ) * 20) 20 / 20 * 100 else 0) =
      JsonValue.num 70
    rw [if_pos (by norm_num), hmin]
    norm_num

/-- Witness for C5 on the literal reply `score: 7/10`. -/
theorem c5_fallback_rescale_witness :
    searchScore "score: 7/10".data = some (7, some 10) ∧
    (_fallback_text_parsing "score: 7/10" 20).total_score = .num 14 := by
  refine ⟨by decide, ?_⟩
  exact (c5_fallback_rescale "score: 7/10" (by decide)).1

/-- C5 counterexample: the reply `marks 5 score: 7/10` contains the substring
`score: 7/10` and is not JSON, but the leftmost regex match is `marks 5`, so
the fallback result is 5, not 14. -/
theorem c5_counterexample :
    (json_loads (extract_json_content (pyStrip "marks 5 score: 7/10"))).isSome = false ∧
    asNum ((_parse_grading_response "marks 5 score: 7/10" 20).total_score) = some 5 ∧
    ((5 : ℚ) = 14) = False := by
  refine ⟨by decide, by decide, by norm_num⟩

/-! ### Claim C10: totality of the fallback parser and the division by zero -/

/-- C10: the fallback parser is total (it always yields a result carrying a
numeric score), and on a reply whose regex match reports a maximum of zero
while `total_marks` is nonzero, the division by zero is caught and the
canonical error result is returned. -/
theorem c10_fallback_divzero (resp : String) (m : ℚ) (n : Nat) :
    (asNum ((_fallback_text_parsing resp m).total_score)).isSome = true ∧
    (m ≠ 0 → searchScore resp.data = some (n, some 0) →
      _fallback_text_parsing resp m = _create_error_result "Failed to parse grading response") := by
  constructor
  · unfold _fallback_text_parsing fallbackBody
    cases hs : searchScore resp.data with
    | none => rfl
    | some p =>
      obtain ⟨g1, g2⟩ := p
      dsimp only
      split
      next r heq =>
        split at heq
        · simp only [Except.ok.injEq] at heq
          rw [← heq]
          rfl
        · split at heq
          · exact absurd heq (by simp)
          · simp only [Except.ok.injEq] at heq
            rw [← heq]
            rfl
      next e heq => rfl
  · intro hm hsearch
    unfold _fallback_text_parsing fallbackBody
    rw [hsearch]
    dsimp only
    rw [if_neg (by simpa using fun h => hm h.symm), if_pos (by norm_num)]

/-- Witness for C10 on the literal reply `score: 7/0` at `total_marks = 20`. -/
theorem c10_fallback_divzero_witness :
    (20 : ℚ) ≠ 0 ∧ searchScore "score: 7/0".data = some (7, some 0) ∧
    _fallback_text_parsing "score: 7/0" 20 =
      _create_error_result "Failed to parse grading response" := by
  refine ⟨by norm_num, by decide, ?_⟩
  exact (c10_fallback_divzero "score: 7/0" 20 7).2 (by norm_num) (by decide)

/-! ### Claim C6: network failures yield the canonical error result -/

/-- C6: whenever the API key is set but the HTTP request raises a network
exception or comes back with a non-200 status, `grade_assignment` returns the
canonical error result: zero score, zero percentage, a non-empty feedback
string starting with `Error during grading: `, and empty collections. -/
theorem c6_network_error_result (api_key : String) (outcome : ApiOutcome) (m : ℚ)
    (hkey : api_key ≠ "")
    (hbad : (∃ e, outcome = .netError e) ∨
      (∃ status body, outcome = .httpResponse status body ∧ status ≠ 200)) :
    grade_assignment api_key outcome m =
      _create_error_result "Failed to get response from Gemini AI" ∧
    (grade_assignment api_key outcome m).total_score = .num 0 ∧
    (grade_assignment api_key outcome m).percentage = .num 0 ∧
    (grade_assignment api_key outcome m).feedback ≠ "" ∧
    startsWithChars "Error during grading: ".data
      (grade_assignment api_key outcome m).feedback.data = true ∧
    (grade_assignment api_key outcome m).criteria_scores = .obj [] ∧
    (grade_assignment api_key outcome m).questions = .arr [] ∧
    (grade_assignment api_key outcome m).strengths = .arr [] ∧
    (grade_assignment api_key outcome m).areas_for_improvement = .arr [] := by
  have hnone : _call_gemini_api outcome = none := by
    rcases hbad with ⟨e, rfl⟩ | ⟨status, body, rfl, hs⟩
    · rfl
    · simp [_call_gemini_api, hs]
  have hga : grade_assignment api_key outcome m =
      _create_error_result "Failed to get response from Gemini AI" := by
    unfold grade_assignment
    rw [if_neg hkey, hnone]
  refine ⟨hga, ?_, ?_, ?_, ?_, ?_, ?_, ?_, ?_⟩ <;> rw [hga] <;> first | rfl | decide

/-- Witness for C6 at a concrete network exception. -/
theorem c6_network_error_result_witness :
    "key" ≠ "" ∧
    (grade_assignment "key" (.netError "connection reset") 10).total_score = .num 0 ∧
    (grade_assignment "key" (.netError "connection reset") 10).percentage = .num 0 := by
  have h := c6_network_error_result "key" (.netError "connection reset") 10
    (by decide) (Or.inl ⟨"connection reset", rfl⟩)
  exact ⟨by decide, h.2.1, h.2.2.1⟩

/-! ### Claim C7: per-file failures are caught and zeroed -/

/-- C7: an exception raised by text extraction, and an exception raised by
grading, are both caught inside `process_single_file`, which returns a result
with `awarded_marks = 0` and `percentage = 0` (so the batch loop over files
continues; the model function is total by construction). -/
theorem c7_file_failures_zeroed (fn : String) (m : ℚ) (e1 e2 ge : String)
    (g : Except String GradingResult) (txt : String) :
    ((process_single_file fn m (.error e1) (.error e2) g).awarded_marks = .num 0 ∧
     (process_single_file fn m (.error e1) (.error e2) g).percentage = 0) ∧
    (¬ (txt = "" ∨ pyStrip txt = "") →
      (process_single_file fn m (.ok txt) (.ok txt) (.error ge)).awarded_marks = .num 0 ∧
      (process_single_file fn m (.ok txt) (.ok txt) (.error ge)).percentage = 0) := by
  constructor
  · unfold process_single_file
    cases hi : isImageType (validate_file_type fn) <;> simp [hi, errorFileResult]
  · intro htxt
    unfold process_single_file
    cases hi : isImageType (validate_file_type fn) <;>
      simp only [hi, if_true, if_false, Bool.false_eq_true, ite_true, ite_false] <;>
      rw [if_neg htxt] <;> exact ⟨rfl, rfl⟩

/-- Witness for C7 at concrete failing services. -/
theorem c7_file_failures_zeroed_witness :
    (¬ ("essay text" = "" ∨ pyStrip "essay text" = "")) ∧
    (process_single_file "a.pdf" 10 (.error "io error") (.error "io error")
      (.ok (_create_error_result "x"))).awarded_marks = .num 0 ∧
    (process_single_file "a.pdf" 10 (.ok "essay text") (.ok "essay text")
      (.error "grading raised")).percentage = 0 := by
  have h := c7_file_failures_zeroed "a.pdf" 10 "io error" "io error" "grading raised"
    (.ok (_create_error_result "x")) "essay text"
  exact ⟨by decide, h.1.1, (h.2 (by decide)).2⟩

/-! ### Claim C8: the accepted upload file types -/

/-- The lookup table of `validate_file_type` accepts exactly the spec's
extension set. -/
theorem supported_types_spec (k : String) :
    (supported_types k).isSome = specAccepted k := by
  unfold supported_types specAccepted
  repeat' split
  all_goals simp_all

/-- C8: `validate_file_type` returns a non-`none` type exactly when the
lowercased, dot-stripped extension of the filename is one of the six accepted
extensions (the empty filename has an empty extension key and is rejected),
and a `doc` extension is mapped to the `docx` handler. -/
theorem c8_accepted_extensions (f : String) :
    ((validate_file_type f).isSome = specAccepted (fileExtKey f)) ∧
    (fileExtKey f = "doc" → validate_file_type f = some "docx") := by
  by_cases hf : f = ""
  · subst hf
    refine ⟨by decide, ?_⟩
    intro h
    exact absurd h (by decide)
  · unfold validate_file_type
    rw [if_neg hf]
    refine ⟨supported_types_spec _, ?_⟩
    intro h
    rw [h]
    rfl

/-- Witness for C8 at the filename `report.DOC`. -/
theorem c8_accepted_extensions_witness :
    fileExtKey "report.DOC" = "doc" ∧ validate_file_type "report.DOC" = some "docx" := by
  refine ⟨by decide, ?_⟩
  exact (c8_accepted_extensions "report.DOC").2 (by decide)

/-! ### Claim C1: passthrough of an in-range score and the percentage rule -/

/-- C1 (amended): for a reply that parses to a JSON object whose numeric
`total_score` is at most `total_marks` (and whose feedback fields combine
without a type error), the result keeps the reply's own `total_score` value;
the percentage is recomputed as `total_score / total_marks * 100` exactly when
the score is positive, and otherwise the reply's `percentage` field (default
0) is returned unchanged. -/
theorem c1_score_and_percentage (resp : String) (m : ℚ)
    (kvs : List (String × JsonValue)) (s : ℚ) (fb : String)
    (hload : json_loads (extract_json_content (pyStrip resp)) = some (.obj kvs))
    (hnum : asNum (objGet kvs "total_score" (.num 0)) = some s)
    (hle : s ≤ m)
    (hfb : _combine_feedback kvs = .ok fb) :
    (_parse_grading_response resp m).total_score = objGet kvs "total_score" (.num 0) ∧
    (0 < s → (_parse_grading_response resp m).percentage = .num (s / m * 100)) ∧
    (s ≤ 0 → (_parse_grading_response resp m).percentage = objGet kvs "percentage" (.num 0)) := by
  have hmin := pyMinScore_of_le (objGet kvs "total_score" (.num 0)) m s hnum hle
  simp only [_parse_grading_response]
  rw [hload]
  simp only [normalize_grading_data]
  rw [hmin]
  dsimp only
  rw [hfb]
  dsimp only
  rw [hnum]
  dsimp only [Option.getD_some]
  by_cases h0 : 0 < s
  · rw [if_pos h0]
    exact ⟨rfl, fun _ => rfl, fun hle0 => absurd h0 (not_lt.mpr hle0)⟩
  · rw [if_neg h0]
    exact ⟨rfl, fun h => absurd h h0, fun _ => rfl⟩

/-- Witness for C1 on the reply with score 5 of 10 and a bogus percentage 1. -/
theorem c1_score_and_percentage_witness :
    json_loads (extract_json_content (pyStrip "\x7b\"total_score\": 5, \"percentage\": 1\x7d")) =
      some (.obj [("total_score", JsonValue.num 5), ("percentage", JsonValue.num 1)]) ∧
    (5 : ℚ) ≤ 10 ∧
    (_parse_grading_response "\x7b\"total_score\": 5, \"percentage\": 1\x7d" 10).total_score =
      objGet [("total_score", JsonValue.num 5), ("percentage", JsonValue.num 1)]
        "total_score" (.num 0) := by
  refine ⟨by rfl, by decide, ?_⟩
  exact (c1_score_and_percentage "\x7b\"total_score\": 5, \"percentage\": 1\x7d" 10
    [("total_score", JsonValue.num 5), ("percentage", JsonValue.num 1)] 5 ""
    (by rfl) (by rfl) (by decide) (by rfl)).1

/-- C1 counterexample: on the reply with `total_score 0` and `percentage 50`
(score 0 is within `total_marks = 10`), the claim demands a recomputed
percentage `0 / 10 * 100 = 0`, but the code keeps the reply's 50. -/
theorem c1_counterexample :
    (json_loads (extract_json_content
      (pyStrip "\x7b\"total_score\": 0, \"percentage\": 50\x7d"))).isSome = true ∧
    asNum ((_parse_grading_response "\x7b\"total_score\": 0, \"percentage\": 50\x7d" 10).total_score) =
      some 0 ∧
    asNum ((_parse_grading_response "\x7b\"total_score\": 0, \"percentage\": 50\x7d" 10).percentage) =
      some 50 ∧
    (some (50 : ℚ) = some ((0 : ℚ) / 10 * 100)) = False := by
  refine ⟨by decide, by decide, by decide, ?_⟩
  simp only [Option.some.injEq, eq_iff_iff, iff_false]
  norm_num

/-! ### Claim C2: range of the normalized score -/

/-- C2 (amended): for a nonnegative `total_marks`, every result of
`_parse_grading_response` carries a numeric `total_score` at most
`total_marks` (scores above it are clamped down on every path); on the regex
fallback path the score is additionally nonnegative.  The structured path has
no lower clamp: a negative reply score passes through (see the
counterexample). -/
theorem c2_score_range (resp : String) (m : ℚ) (hm : 0 ≤ m) :
    (∃ q, asNum ((_parse_grading_response resp m).total_score) = some q ∧ q ≤ m) ∧
    (json_loads (extract_json_content (pyStrip resp)) = none →
      ∃ q, asNum ((_parse_grading_response resp m).total_score) = some q ∧ 0 ≤ q ∧ q ≤ m) := by
  simp only [_parse_grading_response]
  cases hl : json_loads (extract_json_content (pyStrip resp)) with
  | none =>
    dsimp only
    exact ⟨(fallback_score_bounds (pyStrip resp) m hm).imp
      (fun q hq => ⟨hq.1, hq.2.2⟩), fun _ => fallback_score_bounds (pyStrip resp) m hm⟩
  | some d =>
    dsimp only
    constructor
    · cases hn : normalize_grading_data d m with
      | ok r =>
        dsimp only
        exact normalize_ok_score_le d m r hn
      | error e =>
        dsimp only
        exact ⟨0, rfl, hm⟩
    · intro hnone
      exact absurd hnone (by simp)

/-- Witness for C2 at a non-JSON reply and `total_marks = 10`. -/
theorem c2_score_range_witness :
    (0 : ℚ) ≤ 10 ∧
    (∃ q, asNum ((_parse_grading_response "no json here" 10).total_score) = some q ∧ q ≤ 10) := by
  exact ⟨by norm_num, (c2_score_range "no json here" 10 (by norm_num)).1⟩

/-- C2 counterexample: a reply with `total_score -5` yields a result whose
`total_score` is `-5`, below the claimed lower bound 0. -/
theorem c2_counterexample :
    asNum ((_parse_grading_response "\x7b\"total_score\": -5\x7d" 10).total_score) = some (-5) ∧
    ((-5 : ℚ) < 0) := by
  exact ⟨by decide, by norm_num⟩

/-! ### Claim C3: when the percentage is recomputed -/

/-- C3 (amended): for a reply that parses as JSON and whose normalization
succeeds (no type error from `min` or the feedback combination), the result's
percentage is recomputed as `total_score / total_marks * 100` exactly when the
clamped score is positive, and otherwise is the reply's own `percentage` field
(default 0). -/
theorem c3_percentage_recompute (resp : String) (m : ℚ)
    (kvs : List (String × JsonValue)) (r : GradingResult)
    (hload : json_loads (extract_json_content (pyStrip resp)) = some (.obj kvs))
    (hok : normalize_grading_data (.obj kvs) m = .ok r) :
    ∃ q, asNum ((_parse_grading_response resp m).total_score) = some q ∧
      (0 < q → (_parse_grading_response resp m).percentage = .num (q / m * 100)) ∧
      (q ≤ 0 → (_parse_grading_response resp m).percentage = objGet kvs "percentage" (.num 0)) := by
  have hP : _parse_grading_response resp m = r := by
    simp only [_parse_grading_response]
    rw [hload]
    dsimp only
    rw [hok]
  rw [hP]
  simp only [normalize_grading_data] at hok
  cases hmin : pyMinScore (objGet kvs "total_score" (.num 0)) m with
  | none => rw [hmin] at hok; exact absurd hok (by simp)
  | some ts =>
    rw [hmin] at hok
    dsimp only at hok
    cases hfb : _combine_feedback kvs with
    | error e => rw [hfb] at hok; exact absurd hok (by simp)
    | ok fb =>
      rw [hfb] at hok
      dsimp only at hok
      obtain ⟨q, hq, _⟩ := pyMinScore_spec _ _ _ hmin
      rw [hq] at hok
      simp only [Option.getD_some] at hok
      by_cases h0 : 0 < q
      · rw [if_pos h0] at hok
        simp only [Except.ok.injEq] at hok
        subst hok
        exact ⟨q, hq, fun _ => rfl, fun hle0 => absurd h0 (not_lt.mpr hle0)⟩
      · rw [if_neg h0] at hok
        simp only [Except.ok.injEq] at hok
        subst hok
        exact ⟨q, hq, fun h => absurd h h0, fun _ => rfl⟩

/-- Witness for C3 on the reply with score 5 of 10. -/
theorem c3_percentage_recompute_witness :
    json_loads (extract_json_content (pyStrip "\x7b\"total_score\": 5\x7d")) =
      some (.obj [("total_score", JsonValue.num 5)]) ∧
    normalize_grading_data (.obj [("total_score", JsonValue.num 5)]) 10 =
      .ok ⟨.num 5, .num ((5 : ℚ) / 10 * 100), "", .obj [], .arr [], .arr [], .arr [], .str ""⟩ ∧
    (∃ q, asNum ((_parse_grading_response "\x7b\"total_score\": 5\x7d" 10).total_score) = some q ∧
      (0 < q → (_parse_grading_response "\x7b\"total_score\": 5\x7d" 10).percentage =
        .num (q / 10 * 100)) ∧
      (q ≤ 0 → (_parse_grading_response "\x7b\"total_score\": 5\x7d" 10).percentage =
        objGet [("total_score", JsonValue.num 5)] "percentage" (.num 0))) := by
  refine ⟨by rfl, by rfl, ?_⟩
  exact c3_percentage_recompute "\x7b\"total_score\": 5\x7d" 10
    [("total_score", JsonValue.num 5)]
    ⟨.num 5, .num ((5 : ℚ) / 10 * 100), "", .obj [], .arr [], .arr [], .arr [], .str ""⟩
    (by rfl) (by rfl)

/-- C3 counterexample: the reply with `total_score 5` and a truthy,
non-iterable `strengths 7` parses as JSON, yet the normalization raises and
the result's percentage is the error result's 0, not the recomputed
`5 / 10 * 100`. -/
theorem c3_counterexample :
    (json_loads (extract_json_content
      (pyStrip "\x7b\"total_score\": 5, \"strengths\": 7\x7d"))).isSome = true ∧
    asNum ((_parse_grading_response "\x7b\"total_score\": 5, \"strengths\": 7\x7d" 10).percentage) =
      some 0 ∧
    (some (0 : ℚ) = some ((5 : ℚ) / 10 * 100)) = False := by
  refine ⟨by decide, by decide, ?_⟩
  simp only [Option.some.injEq, eq_iff_iff, iff_false]
  norm_num

/-! ### Claim C9: empty criteria mapping passes through -/

/-- C9 (amended): for a reply that parses to a JSON object whose
`criteria_scores` is the empty mapping, and whose remaining fields are
well-typed (numeric-or-absent `total_score`, feedback fields that combine
without a type error), the normalizer succeeds and the result's
`criteria_scores` is the empty mapping. -/
theorem c9_empty_criteria (resp : String) (m : ℚ)
    (kvs : List (String × JsonValue)) (s : ℚ) (fb : String)
    (hload : json_loads (extract_json_content (pyStrip resp)) = some (.obj kvs))
    (hcrit : objGet kvs "criteria_scores" (.obj []) = .obj [])
    (hnum : asNum (objGet kvs "total_score" (.num 0)) = some s)
    (hfb : _combine_feedback kvs = .ok fb) :
    (∃ r, normalize_grading_data (.obj kvs) m = .ok r) ∧
    (_parse_grading_response resp m).criteria_scores = .obj [] := by
  have hmin : pyMinScore (objGet kvs "total_score" (.num 0)) m =
      some (if m < s then JsonValue.num m else objGet kvs "total_score" (.num 0)) := by
    unfold pyMinScore
    rw [hnum]
  obtain ⟨ts, hts⟩ : ∃ ts, pyMinScore (objGet kvs "total_score" (.num 0)) m = some ts :=
    ⟨_, hmin⟩
  have key : ∃ r, normalize_grading_data (.obj kvs) m = .ok r ∧
      r.criteria_scores = .obj [] := by
    simp only [normalize_grading_data]
    rw [hts]
    dsimp only
    rw [hfb]
    dsimp only
    by_cases h0 : 0 < (asNum ts).getD 0
    · rw [if_pos h0]
      exact ⟨_, rfl, hcrit⟩
    · rw [if_neg h0]
      exact ⟨_, rfl, hcrit⟩
  obtain ⟨r, hok, hc⟩ := key
  refine ⟨⟨r, hok⟩, ?_⟩
  have hP : _parse_grading_response resp m = r := by
    simp only [_parse_grading_response]
    rw [hload]
    dsimp only
    rw [hok]
  rw [hP]
  exact hc

/-- Witness for C9 on the reply carrying only an empty `criteria_scores`. -/
theorem c9_empty_criteria_witness :
    json_loads (extract_json_content (pyStrip "\x7b\"criteria_scores\": \x7b\x7d\x7d")) =
      some (.obj [("criteria_scores", JsonValue.obj [])]) ∧
    (_parse_grading_response "\x7b\"criteria_scores\": \x7b\x7d\x7d" 10).criteria_scores =
      .obj [] := by
  refine ⟨by rfl, ?_⟩
  exact (c9_empty_criteria "\x7b\"criteria_scores\": \x7b\x7d\x7d" 10
    [("criteria_scores", JsonValue.obj [])] 0 ""
    (by rfl) (by rfl) (by rfl) (by rfl)).2

/-- C9 counterexample: the reply with an empty `criteria_scores` but a string
`total_score` is valid JSON, yet normalization raises a `TypeError` and the
canonical error result is returned instead of a success. -/
theorem c9_counterexample :
    (json_loads (extract_json_content
      (pyStrip "\x7b\"total_score\": \"abc\", \"criteria_scores\": \x7b\x7d\x7d"))).isSome = true ∧
    _parse_grading_response "\x7b\"total_score\": \"abc\", \"criteria_scores\": \x7b\x7d\x7d" 10 =
      _create_error_result "TypeError" := by
  exact ⟨by decide, by rfl⟩

/-! ### Metatheory for claim C4: newline-backtick pairs and substring search -/

/-- Helper: heads of nonempty prepended lists. -/
theorem head?_append_left {α : Type} (l1 l2 : List α) (h : l1 ≠ []) :
    (l1 ++ l2).head? = l1.head? := by
  cases l1 with
  | nil => exact absurd rfl h
  | cons a r => rfl

/-- Helper: `dropWhile` never lengthens a list. -/
theorem length_dropWhile_le (p : Char → Bool) (l : List Char) :
    (l.dropWhile p).length ≤ l.length := by
  induction l with
  | nil => simp
  | cons a r ih =>
    by_cases hp : p a
    · rw [List.dropWhile_cons_of_pos hp]
      exact le_trans ih (Nat.le_succ _)
    · rw [List.dropWhile_cons_of_neg hp]

/-- Helper: `dropWhile` strictly shortens a list whose head satisfies the
predicate. -/
theorem length_dropWhile_lt (p : Char → Bool) (a : Char) (r : List Char) (h : p a = true) :
    ((a :: r).dropWhile p).length < (a :: r).length := by
  rw [List.dropWhile_cons_of_pos h]
  exact Nat.lt_succ_of_le (length_dropWhile_le p r)

/-- A cons is pair-free when its tail is and the new pair is not
newline-backtick. -/
theorem pairFree_cons (a : Char) (l : List Char)
    (h : pairFree l = true) (ha : a ≠ '\n' ∨ l.head? ≠ some '`') :
    pairFree (a :: l) = true := by
  cases l with
  | nil => rfl
  | cons b r =>
    show (!(a = '\n' && b = '`') && pairFree (b :: r)) = true
    rw [h]
    rcases ha with ha | ha
    · simp [ha]
    · have hb : b ≠ '`' := by simpa using ha
      simp [hb]

/-- The tail of a pair-free list is pair-free. -/
theorem pairFree_tail (a : Char) (l : List Char) (h : pairFree (a :: l) = true) :
    pairFree l = true := by
  cases l with
  | nil => rfl
  | cons b r =>
    have := h
    simp only [pairFree, Bool.and_eq_true] at this
    exact this.2

/-- Dropping a prefix preserves pair-freeness. -/
theorem pairFree_drop (m : Nat) (l : List Char) (h : pairFree l = true) :
    pairFree (l.drop m) = true := by
  induction m generalizing l with
  | zero => exact h
  | succ k ih =>
    cases l with
    | nil => rfl
    | cons a r => exact ih r (pairFree_tail a r h)

/-- A list with no newline at all is pair-free. -/
theorem pairFree_of_no_nl (l : List Char) (h : ∀ c ∈ l, c ≠ '\n') :
    pairFree l = true := by
  induction l with
  | nil => rfl
  | cons a r ih =>
    exact pairFree_cons a r (ih (fun c hc => h c (List.mem_cons_of_mem a hc)))
      (Or.inl (h a (List.mem_cons_self a r)))

/-- A list with no backtick at all is pair-free. -/
theorem pairFree_of_no_bt (l : List Char) (h : ∀ c ∈ l, c ≠ '`') :
    pairFree l = true := by
  induction l with
  | nil => rfl
  | cons a r ih =>
    refine pairFree_cons a r (ih (fun c hc => h c (List.mem_cons_of_mem a hc))) (Or.inr ?_)
    cases r with
    | nil => simp
    | cons b rr =>
      simp only [List.head?_cons, ne_eq, Option.some.injEq]
      exact h b (List.mem_cons_of_mem a (List.mem_cons_self b rr))

/-- Prepending newline-free characters preserves pair-freeness. -/
theorem pairFree_append_no_nl (p l : List Char)
    (hp : ∀ c ∈ p, c ≠ '\n') (hl : pairFree l = true) :
    pairFree (p ++ l) = true := by
  induction p with
  | nil => exact hl
  | cons a r ih =>
    exact pairFree_cons a (r ++ l)
      (ih (fun c hc => hp c (List.mem_cons_of_mem a hc)))
      (Or.inl (hp a (List.mem_cons_self a r)))

/-- Prepending backtick-free characters to a list whose head is not a
backtick preserves pair-freeness. -/
theorem pairFree_append_no_bt (w l : List Char)
    (hw : ∀ c ∈ w, c ≠ '`') (hl : pairFree l = true)
    (hlh : ∀ c, l.head? = some c → c ≠ '`') :
    pairFree (w ++ l) = true := by
  induction w with
  | nil => exact hl
  | cons a r ih =>
    refine pairFree_cons a (r ++ l)
      (ih (fun c hc => hw c (List.mem_cons_of_mem a hc))) (Or.inr ?_)
    cases r with
    | nil =>
      simp only [List.nil_append]
      intro hcontra
      cases hh : l.head? with
      | none => rw [hh] at hcontra; exact Option.noConfusion hcontra
      | some c =>
        rw [hh] at hcontra
        exact hlh c hh (Option.some.injEq _ _ ▸ hcontra.symm ▸ rfl)
    | cons b rr =>
      simp only [List.cons_append, List.head?_cons, ne_eq, Option.some.injEq]
      exact hw b (List.mem_cons_of_mem a (List.mem_cons_self b rr))

/-- A list is a prefix of itself followed by anything. -/
theorem startsWithChars_append_self (p t : List Char) :
    startsWithChars p (p ++ t) = true := by
  induction p with
  | nil => rfl
  | cons a ps ih => simp [startsWithChars, ih]

/-- A list is a prefix of itself. -/
theorem startsWithChars_self (p : List Char) : startsWithChars p p = true := by
  have h := startsWithChars_append_self p []
  rwa [List.append_nil] at h

/-- Substring search finds an immediate prefix at index 0. -/
theorem findSub_self_starts (p t : List Char) (hp : p ≠ []) :
    findSub p (p ++ t) = some 0 := by
  cases p with
  | nil => exact absurd rfl hp
  | cons a ps =>
    show findSub (a :: ps) (a :: (ps ++ t)) = some 0
    rw [findSub]
    rw [show a :: (ps ++ t) = (a :: ps) ++ t from rfl]
    rw [if_pos (startsWithChars_append_self (a :: ps) t)]

/-- Builder for `findSub`: if no earlier position matches and position `n`
does, the search returns `n`. -/
theorem findSub_eq_some_of (pat : List Char) (hp : pat ≠ []) :
    ∀ (n : Nat) (hay : List Char),
      (∀ m, m < n → startsWithChars pat (hay.drop m) = false) →
      startsWithChars pat (hay.drop n) = true →
      findSub pat hay = some n := by
  intro n
  induction n with
  | zero =>
    intro hay hbefore hat
    cases hay with
    | nil =>
      cases pat with
      | nil => exact absurd rfl hp
      | cons a ps => exact absurd hat (by simp [startsWithChars])
    | cons c r =>
      rw [List.drop_zero] at hat
      rw [findSub, if_pos hat]
  | succ k ih =>
    intro hay hbefore hat
    cases hay with
    | nil =>
      cases pat with
      | nil => exact absurd rfl hp
      | cons a ps => exact absurd hat (by simp [startsWithChars])
    | cons c r =>
      rw [findSub, if_neg ?_]
      · rw [ih r (fun m hm => hbefore (m + 1) (Nat.succ_lt_succ hm)) hat]
        rfl
      · have h0 := hbefore 0 (Nat.succ_pos k)
        rw [List.drop_zero] at h0
        simp [h0]

/-- Builder for `findSub`: if no position matches the search fails. -/
theorem findSub_eq_none_of (pat : List Char) (hp : pat ≠ []) :
    ∀ hay : List Char,
      (∀ m, startsWithChars pat (hay.drop m) = false) → findSub pat hay = none := by
  intro hay
  induction hay with
  | nil =>
    intro h
    cases pat with
    | nil => exact absurd rfl hp
    | cons a ps => rfl
  | cons c r ih =>
    intro h
    rw [findSub, if_neg ?_]
    · rw [ih (fun m => h (m + 1))]
      rfl
    · have h0 := h 0
      rw [List.drop_zero] at h0
      simp [h0]

/-- A list starting with the closing fence literal starts with a newline and
a backtick. -/
theorem close_starts (l : List Char) (h : startsWithChars fenceCloseChars l = true) :
    ∃ u, l = '\n' :: '`' :: u := by
  have hclose : fenceCloseChars = ['\n', '`', '`', '`'] := rfl
  rw [hclose] at h
  cases l with
  | nil => exact absurd h (by simp [startsWithChars])
  | cons a tl =>
    cases tl with
    | nil => exact absurd h (by simp [startsWithChars])
    | cons b tl2 =>
      simp only [startsWithChars, Bool.and_eq_true, decide_eq_true_eq] at h
      exact ⟨tl2, by rw [h.1, h.2.1]⟩

/-- On a pair-free list the closing fence literal matches at no position. -/
theorem pairFree_no_close (l : List Char) (h : pairFree l = true) :
    ∀ m, startsWithChars fenceCloseChars (l.drop m) = false := by
  intro m
  cases h' : startsWithChars fenceCloseChars (l.drop m) with
  | false => rfl
  | true =>
    obtain ⟨u, hu⟩ := close_starts _ h'
    have hpf := pairFree_drop m l h
    rw [hu] at hpf
    simp [pairFree] at hpf

/-- On a pair-free list the closing fence literal is not found at all. -/
theorem findSub_close_none (l : List Char) (h : pairFree l = true) :
    findSub fenceCloseChars l = none :=
  findSub_eq_none_of fenceCloseChars (by decide) l (pairFree_no_close l h)

/-- Appending the closing fence literal to a pair-free list places its first
occurrence exactly at the end. -/
theorem findSub_close_append (j : List Char) (h : pairFree j = true) :
    findSub fenceCloseChars (j ++ fenceCloseChars) = some j.length := by
  refine findSub_eq_some_of fenceCloseChars (by decide) j.length (j ++ fenceCloseChars) ?_ ?_
  · intro m hm
    cases h' : startsWithChars fenceCloseChars ((j ++ fenceCloseChars).drop m) with
    | false => rfl
    | true =>
      rw [List.drop_append_of_le_length (le_of_lt hm)] at h'
      obtain ⟨u, hu⟩ := close_starts _ h'
      have hne : j.drop m ≠ [] := by
        intro hnil
        have hlen := List.length_drop m j
        rw [hnil] at hlen
        simp at hlen
        omega
      cases hd : j.drop m with
      | nil => exact absurd hd hne
      | cons x xs =>
        rw [hd, List.cons_append] at hu
        cases xs with
        | nil =>
          rw [List.nil_append] at hu
          rw [show fenceCloseChars = ['\n', '`', '`', '`'] from rfl] at hu
          injection hu with h1 h2
          injection h2 with h3 h4
          exact absurd h3 (by decide)
        | cons y ys =>
          rw [List.cons_append] at hu
          injection hu with h1 h2
          injection h2 with h3 h4
          have hpf := pairFree_drop m j h
          rw [hd, h1, h3] at hpf
          simp [pairFree] at hpf
  · rw [List.drop_left]
    exact startsWithChars_self fenceCloseChars

/-- The fence regex on the canonical fenced wrapper extracts exactly the
wrapped body, provided the body is pair-free. -/
theorem fence_match_wrap (j : List Char) (h : pairFree j = true) :
    fence_match (fenceOpenChars ++ (j ++ fenceCloseChars)) = some j := by
  unfold fence_match
  rw [findSub_self_starts fenceOpenChars (j ++ fenceCloseChars) (by decide)]
  dsimp only
  rw [Nat.zero_add, List.drop_left, findSub_close_append j h]
  dsimp only
  rw [List.take_left]

/-- The fence regex finds nothing on a pair-free list. -/
theorem fence_match_none (l : List Char) (h : pairFree l = true) :
    fence_match l = none := by
  unfold fence_match
  cases hf : findSub fenceOpenChars l with
  | none => rfl
  | some i =>
    dsimp only
    rw [findSub_close_none _ (pairFree_drop _ _ h)]

/-! ### Character-class facts for the lexer metatheory -/

/-- Characters with code at least 33 are not Python whitespace. -/
theorem isPySpace_false_of_ge (c : Char) (h : 33 ≤ c.toNat) : isPySpace c = false := by
  have hs : c ≠ ' ' := fun he => absurd (he ▸ h) (by decide)
  have ht : c ≠ '\t' := fun he => absurd (he ▸ h) (by decide)
  have hn : c ≠ '\n' := fun he => absurd (he ▸ h) (by decide)
  have hr : c ≠ '\r' := fun he => absurd (he ▸ h) (by decide)
  have hv : c ≠ '\x0b' := fun he => absurd (he ▸ h) (by decide)
  have hf : c ≠ '\x0c' := fun he => absurd (he ▸ h) (by decide)
  simp [isPySpace, hs, ht, hn, hr, hv, hf]

/-- Digits are not newlines. -/
theorem isDigit_ne_nl (c : Char) (h : isDigitChar c = true) : c ≠ '\n' := by
  intro he
  rw [he] at h
  exact absurd h (by decide)

/-- Digits are not Python whitespace and not backticks. -/
theorem isDigit_head_ok (c : Char) (h : isDigitChar c = true) :
    isPySpace c = false ∧ c ≠ '`' := by
  simp only [isDigitChar, Bool.and_eq_true, decide_eq_true_eq] at h
  refine ⟨isPySpace_false_of_ge c (by omega), ?_⟩
  intro he
  rw [he] at h
  exact absurd h.2 (by decide)

/-- JSON whitespace is Python whitespace. -/
theorem isJsonWs_pySpace (c : Char) (h : isJsonWs c = true) : isPySpace c = true := by
  simp only [isJsonWs, Bool.or_eq_true, decide_eq_true_eq] at h
  rcases h with ((rfl | rfl) | rfl) | rfl <;> decide

/-- JSON whitespace is never a backtick. -/
theorem isJsonWs_ne_bt (c : Char) (h : isJsonWs c = true) : c ≠ '`' := by
  simp only [isJsonWs, Bool.or_eq_true, decide_eq_true_eq] at h
  rcases h with ((rfl | rfl) | rfl) | rfl <;> decide

/-- Accepted hexadecimal digits have code above 31. -/
theorem hexDigit_gt31 (c : Char) (v : Nat) (h : hexDigit c = some v) : 31 < c.toNat := by
  unfold hexDigit at h
  split at h
  · next hcond => simp only [Bool.and_eq_true, decide_eq_true_eq] at hcond; omega
  · split at h
    · next hcond => simp only [Bool.and_eq_true, decide_eq_true_eq] at hcond; omega
    · split at h
      · next hcond => simp only [Bool.and_eq_true, decide_eq_true_eq] at hcond; omega
      · exact absurd h (by simp)

/-- Accepted single-character escapes have code above 31. -/
theorem jsonEscape_gt31 (e : Char) (ch : Char) (h : jsonEscape e = some ch) : 31 < e.toNat := by
  unfold jsonEscape at h
  split at h <;> first | decide | exact absurd h (by simp)

/-! ### Decomposition of the consumed text of each token -/

/-- A successful string-body lex consumes a nonempty prefix whose characters
all have code above 31 (in particular, no newline). -/
theorem lexStrBody_spec :
    ∀ (fuel : Nat) (acc cs : List Char) (s : String) (rest : List Char),
      lexStrBody fuel acc cs = some (s, rest) →
      ∃ p, cs = p ++ rest ∧ (∀ c ∈ p, 31 < c.toNat) ∧ p ≠ [] := by
  intro fuel
  induction fuel with
  | zero =>
    intro acc cs s rest h
    exact absurd h (by simp [lexStrBody.eq_def])
  | succ f ih =>
    intro acc cs s rest h
    rw [lexStrBody.eq_def] at h
    dsimp only at h
    split at h
    · exact absurd h (by simp)
    · rename_i rest2
      simp only [Option.some.injEq, Prod.mk.injEq] at h
      refine ⟨['"'], ?_, ?_, by simp⟩
      · simp [h.2]
      · intro c hc
        simp only [List.mem_singleton] at hc
        subst hc
        decide
    · rename_i a b cc dd rest3
      split at h
      · rename_i va vb vc vd hva hvb hvc hvd
        obtain ⟨p, hp, hmem, hne⟩ := ih _ _ _ _ h
        refine ⟨'\\' :: 'u' :: a :: b :: cc :: dd :: p, ?_, ?_, by simp⟩
        · simp [List.cons_append, hp]
        · intro c hc
          simp only [List.mem_cons] at hc
          rcases hc with rfl | rfl | rfl | rfl | rfl | rfl | hc
          · decide
          · decide
          · exact hexDigit_gt31 _ _ hva
          · exact hexDigit_gt31 _ _ hvb
          · exact hexDigit_gt31 _ _ hvc
          · exact hexDigit_gt31 _ _ hvd
          · exact hmem c hc
      · exact absurd h (by simp)
    · rename_i e4 rest4 hover
      split at h
      · rename_i ch hch
        obtain ⟨p, hp, hmem, hne⟩ := ih _ _ _ _ h
        refine ⟨'\\' :: e4 :: p, ?_, ?_, by simp⟩
        · simp [List.cons_append, hp]
        · intro c hc
          simp only [List.mem_cons] at hc
          rcases hc with rfl | rfl | hc
          · decide
          · exact jsonEscape_gt31 _ _ hch
          · exact hmem c hc
      · exact absurd h (by simp)
    · rename_i c5 rest5 hx1 hx2 hx3
      split at h
      · exact absurd h (by simp)
      · rename_i hlt
        obtain ⟨p, hp, hmem, hne⟩ := ih _ _ _ _ h
        refine ⟨c5 :: p, ?_, ?_, by simp⟩
        · simp [List.cons_append, hp]
        · intro c hc
          simp only [List.mem_cons] at hc
          rcases hc with rfl | hc
          · omega
          · exact hmem c hc

/-- The fraction part consumes a dot-and-digits prefix free of newlines. -/
theorem lexFracPart_decomp (r : List Char) :
    ∃ p, r = p ++ (lexFracPart r).2 ∧ ∀ c ∈ p, c ≠ '\n' := by
  rw [lexFracPart.eq_def]
  split
  · rename_i d rr
    split
    · rename_i hd
      refine ⟨'.' :: (d :: rr).takeWhile isDigitChar, ?_, ?_⟩
      · show '.' :: d :: rr = '.' :: ((d :: rr).takeWhile isDigitChar ++ (d :: rr).dropWhile isDigitChar)
        rw [List.takeWhile_append_dropWhile]
      · intro c hc
        simp only [List.mem_cons] at hc
        rcases hc with rfl | hc
        · decide
        · exact isDigit_ne_nl c (List.mem_takeWhile_imp hc)
    · exact ⟨[], rfl, by simp⟩
  · exact ⟨[], rfl, by simp⟩

/-- The exponent part consumes an `e`-sign-digits prefix free of newlines. -/
theorem lexExpPart_decomp (r2 : List Char) :
    ∃ p, r2 = p ++ (lexExpPart r2).2 ∧ ∀ c ∈ p, c ≠ '\n' := by
  rw [lexExpPart.eq_def]
  split
  · rename_i e rest
    split
    · rename_i he
      have hene : e ≠ '\n' := by
        simp only [Bool.or_eq_true, decide_eq_true_eq] at he
        rcases he with rfl | rfl <;> decide
      split
      · rename_i d rr
        split
        · rename_i hd
          refine ⟨e :: '+' :: (d :: rr).takeWhile isDigitChar, ?_, ?_⟩
          · show e :: '+' :: d :: rr =
              e :: '+' :: ((d :: rr).takeWhile isDigitChar ++ (d :: rr).dropWhile isDigitChar)
            rw [List.takeWhile_append_dropWhile]
          · intro c hc
            simp only [List.mem_cons] at hc
            rcases hc with rfl | rfl | hc
            · exact hene
            · decide
            · exact isDigit_ne_nl c (List.mem_takeWhile_imp hc)
        · exact ⟨[], rfl, by simp⟩
      · rename_i d rr
        split
        · rename_i hd
          refine ⟨e :: '-' :: (d :: rr).takeWhile isDigitChar, ?_, ?_⟩
          · show e :: '-' :: d :: rr =
              e :: '-' :: ((d :: rr).takeWhile isDigitChar ++ (d :: rr).dropWhile isDigitChar)
            rw [List.takeWhile_append_dropWhile]
          · intro c hc
            simp only [List.mem_cons] at hc
            rcases hc with rfl | rfl | hc
            · exact hene
            · decide
            · exact isDigit_ne_nl c (List.mem_takeWhile_imp hc)
        · exact ⟨[], rfl, by simp⟩
      · rename_i d rr hov1 hov2
        split
        · rename_i hd
          refine ⟨e :: (d :: rr).takeWhile isDigitChar, ?_, ?_⟩
          · show e :: d :: rr =
              e :: ((d :: rr).takeWhile isDigitChar ++ (d :: rr).dropWhile isDigitChar)
            rw [List.takeWhile_append_dropWhile]
          · intro c hc
            simp only [List.mem_cons] at hc
            rcases hc with rfl | hc
            · exact hene
            · exact isDigit_ne_nl c (List.mem_takeWhile_imp hc)
        · exact ⟨[], rfl, by simp⟩
      · exact ⟨[], rfl, by simp⟩
    · exact ⟨[], rfl, by simp⟩
  · exact ⟨[], rfl, by simp⟩

/-- The fraction-and-exponent tail consumes a newline-free prefix. -/
theorem lexNumTail_decomp (neg : Bool) (intDs r : List Char) :
    ∃ p, r = p ++ (lexNumTail neg intDs r).2 ∧ ∀ c ∈ p, c ≠ '\n' := by
  obtain ⟨p1, h1, m1⟩ := lexFracPart_decomp r
  obtain ⟨p2, h2, m2⟩ := lexExpPart_decomp (lexFracPart r).2
  refine ⟨p1 ++ p2, ?_, ?_⟩
  · show r = (p1 ++ p2) ++ (lexExpPart (lexFracPart r).2).2
    rw [List.append_assoc, ← h2, ← h1]
  · intro c hc
    rcases List.mem_append.mp hc with hc | hc
    · exact m1 c hc
    · exact m2 c hc

/-- A successful integer-digits lex consumes a nonempty, newline-free
prefix. -/
theorem lexNumBody_spec (neg : Bool) (cs1 : List Char) (q : ℚ) (rest : List Char)
    (h : lexNumBody neg cs1 = some (q, rest)) :
    ∃ p, cs1 = p ++ rest ∧ p ≠ [] ∧ ∀ c ∈ p, c ≠ '\n' := by
  rw [lexNumBody.eq_def] at h
  split at h
  · rename_i r0
    simp only [Option.some.injEq] at h
    have hrest : rest = (lexNumTail neg ['0'] r0).2 := by rw [h]
    obtain ⟨p, hp, hm⟩ := lexNumTail_decomp neg ['0'] r0
    refine ⟨'0' :: p, ?_, by simp, ?_⟩
    · rw [hrest, List.cons_append, ← hp]
    · intro c hc
      simp only [List.mem_cons] at hc
      rcases hc with rfl | hc
      · decide
      · exact hm c hc
  · rename_i c0 r0 hov
    split at h
    · rename_i hdig
      simp only [Option.some.injEq] at h
      have hrest : rest =
          (lexNumTail neg ((c0 :: r0).takeWhile isDigitChar)
            ((c0 :: r0).dropWhile isDigitChar)).2 := by rw [h]
      obtain ⟨p, hp, hm⟩ :=
        lexNumTail_decomp neg ((c0 :: r0).takeWhile isDigitChar)
          ((c0 :: r0).dropWhile isDigitChar)
      refine ⟨(c0 :: r0).takeWhile isDigitChar ++ p, ?_, ?_, ?_⟩
      · rw [hrest, List.append_assoc, ← hp, List.takeWhile_append_dropWhile]
      · rw [List.takeWhile_cons_of_pos hdig]
        simp
      · intro c hc
        rcases List.mem_append.mp hc with hc | hc
        · exact isDigit_ne_nl c (List.mem_takeWhile_imp hc)
        · exact hm c hc
    · exact absurd h (by simp)
  · exact absurd h (by simp)

/-- A successful number lex consumes a nonempty, newline-free prefix. -/
theorem lexNumber_spec (cs : List Char) (q : ℚ) (rest : List Char)
    (h : lexNumber cs = some (q, rest)) :
    ∃ p, cs = p ++ rest ∧ p ≠ [] ∧ ∀ c ∈ p, c ≠ '\n' := by
  rw [lexNumber.eq_def] at h
  split at h
  · rename_i cs1
    obtain ⟨p, hp, hne, hm⟩ := lexNumBody_spec true cs1 q rest h
    refine ⟨'-' :: p, ?_, by simp, ?_⟩
    · rw [List.cons_append, ← hp]
    · intro c hc
      simp only [List.mem_cons] at hc
      rcases hc with rfl | hc
      · decide
      · exact hm c hc
  · exact lexNumBody_spec false cs q rest h

/-- Characters with code above 31 are not newlines. -/
theorem gt31_ne_nl (c : Char) (h : 31 < c.toNat) : c ≠ '\n' := by
  intro he
  rw [he] at h
  exact absurd h (by decide)

/-- Packaging helper for single-character tokens in `lex1_spec`. -/
theorem lex1_single_spec (ch : Char) (r rest : List Char) (hr : r = rest)
    (hnl : ch ≠ '\n') (hps : isPySpace ch = false) (hbt : ch ≠ '`') :
    ∃ p, ch :: r = p ++ rest ∧ p ≠ [] ∧ (∀ c ∈ p, c ≠ '\n') ∧
      (∀ c, p.head? = some c → isPySpace c = false ∧ c ≠ '`') := by
  refine ⟨[ch], by simp [hr], by simp, ?_, ?_⟩
  · intro c hc
    simp only [List.mem_singleton] at hc
    subst hc
    exact hnl
  · intro c hc
    simp only [List.head?_cons, Option.some.injEq] at hc
    subst hc
    exact ⟨hps, hbt⟩

/-- A successful single-token lex consumes a nonempty prefix with no newline
whose first character is neither whitespace nor a backtick. -/
theorem lex1_spec (cs : List Char) (t : JTok) (rest : List Char)
    (h : lex1 cs = some (t, rest)) :
    ∃ p, cs = p ++ rest ∧ p ≠ [] ∧ (∀ c ∈ p, c ≠ '\n') ∧
      (∀ c, p.head? = some c → isPySpace c = false ∧ c ≠ '`') := by
  rw [lex1.eq_def] at h
  split at h
  · rename_i r
    simp only [Option.some.injEq, Prod.mk.injEq] at h
    exact lex1_single_spec _ _ _ h.2 (by decide) (by decide) (by decide)
  · rename_i r
    simp only [Option.some.injEq, Prod.mk.injEq] at h
    exact lex1_single_spec _ _ _ h.2 (by decide) (by decide) (by decide)
  · rename_i r
    simp only [Option.some.injEq, Prod.mk.injEq] at h
    exact lex1_single_spec _ _ _ h.2 (by decide) (by decide) (by decide)
  · rename_i r
    simp only [Option.some.injEq, Prod.mk.injEq] at h
    exact lex1_single_spec _ _ _ h.2 (by decide) (by decide) (by decide)
  · rename_i r
    simp only [Option.some.injEq, Prod.mk.injEq] at h
    exact lex1_single_spec _ _ _ h.2 (by decide) (by decide) (by decide)
  · rename_i r
    simp only [Option.some.injEq, Prod.mk.injEq] at h
    exact lex1_single_spec _ _ _ h.2 (by decide) (by decide) (by decide)
  · rename_i r
    simp only [Option.some.injEq, Prod.mk.injEq] at h
    refine ⟨['n', 'u', 'l', 'l'], by simp [h.2], by simp, ?_, ?_⟩
    · intro c hc
      fin_cases hc <;> decide
    · intro c hc
      simp only [List.head?_cons, Option.some.injEq] at hc
      subst hc
      exact ⟨by decide, by decide⟩
  · rename_i r
    simp only [Option.some.injEq, Prod.mk.injEq] at h
    refine ⟨['t', 'r', 'u', 'e'], by simp [h.2], by simp, ?_, ?_⟩
    · intro c hc
      fin_cases hc <;> decide
    · intro c hc
      simp only [List.head?_cons, Option.some.injEq] at hc
      subst hc
      exact ⟨by decide, by decide⟩
  · rename_i r
    simp only [Option.some.injEq, Prod.mk.injEq] at h
    refine ⟨['f', 'a', 'l', 's', 'e'], by simp [h.2], by simp, ?_, ?_⟩
    · intro c hc
      fin_cases hc <;> decide
    · intro c hc
      simp only [List.head?_cons, Option.some.injEq] at hc
      subst hc
      exact ⟨by decide, by decide⟩
  · rename_i r
    split at h
    · rename_i s r1 hbody
      simp only [Option.some.injEq, Prod.mk.injEq] at h
      obtain ⟨p, hp, hmem, hne⟩ := lexStrBody_spec _ _ _ _ _ hbody
      refine ⟨'"' :: p, ?_, by simp, ?_, ?_⟩
      · rw [hp, h.2, List.cons_append]
      · intro c hc
        simp only [List.mem_cons] at hc
        rcases hc with rfl | hc
        · decide
        · exact gt31_ne_nl c (hmem c hc)
      · intro c hc
        simp only [List.head?_cons, Option.some.injEq] at hc
        subst hc
        exact ⟨by decide, by decide⟩
    · exact absurd h (by simp)
  · rename_i c0 rtl hx1 hx2 hx3 hx4 hx5 hx6 hx7 hx8 hx9 hx10
    split at h
    · rename_i hif
      split at h
      · rename_i q r1 hnum
        simp only [Option.some.injEq, Prod.mk.injEq] at h
        obtain ⟨p, hp, hne, hmem⟩ := lexNumber_spec _ _ _ hnum
        have hhd : ∀ c, p.head? = some c → isPySpace c = false ∧ c ≠ '`' := by
          intro c hc
          have hc0 : c = c0 := by
            cases p with
            | nil => exact absurd rfl hne
            | cons a tp =>
              simp only [List.head?_cons, Option.some.injEq] at hc
              subst hc
              rw [List.cons_append] at hp
              injection hp with he ht
              exact he.symm
          subst hc0
          simp only [Bool.or_eq_true, decide_eq_true_eq] at hif
          rcases hif with rfl | hdig
          · exact ⟨by decide, by decide⟩
          · exact isDigit_head_ok c hdig
        exact ⟨p, by rw [hp, h.2], hne, hmem, hhd⟩
      · exact absurd h (by simp)
    · exact absurd h (by simp)
  · exact absurd h (by simp)

/-- Inversion: an opening-brace token comes only from an opening brace. -/
theorem lex1_lbrace_inv (cs rest : List Char) (h : lex1 cs = some (.lbrace, rest)) :
    cs = '\x7b' :: rest := by
  rw [lex1.eq_def] at h
  split at h <;> ((repeat' split at h) <;> simp_all)

/-- Inversion: a closing-brace token comes only from a closing brace. -/
theorem lex1_rbrace_inv (cs rest : List Char) (h : lex1 cs = some (.rbrace, rest)) :
    cs = '\x7d' :: rest := by
  rw [lex1.eq_def] at h
  split at h <;> ((repeat' split at h) <;> simp_all)

/-- A list appended before a shared suffix and equal to one extra element is
that singleton. -/
theorem append_eq_cons_self (p : List Char) (x : Char) (rest : List Char)
    (h : p ++ rest = x :: rest) : p = [x] := by
  have hlen := congrArg List.length h
  simp only [List.length_append, List.length_cons] at hlen
  cases p with
  | nil => simp at hlen
  | cons a tp =>
    cases tp with
    | nil =>
      injection h with h1 h2
      rw [h1]
    | cons b tq =>
      simp only [List.length_cons] at hlen
      omega

/-- The tokenizer rejects everything at fuel zero. -/
theorem lexAll_zero (cs : List Char) (ts : List JTok) (h : lexAll 0 cs = some ts) : False := by
  rw [lexAll.eq_def] at h
  exact absurd h (by simp)

/-- A successfully tokenized text is pair-free: no newline is immediately
followed by a backtick. -/
theorem lexAll_pairFree : ∀ (fuel : Nat) (cs : List Char) (ts : List JTok),
    lexAll fuel cs = some ts → pairFree cs = true := by
  intro fuel
  induction fuel with
  | zero => intro cs ts h; exact absurd h (by simp [lexAll.eq_def])
  | succ f ih =>
    intro cs ts h
    rw [lexAll.eq_def] at h
    dsimp only at h
    cases hcs1 : cs.dropWhile isJsonWs with
    | nil =>
      have hall := List.dropWhile_eq_nil_iff.mp hcs1
      exact pairFree_of_no_bt cs (fun c hc => isJsonWs_ne_bt c (hall c hc))
    | cons c1 r1 =>
      rw [hcs1] at h
      cases hx : lex1 (c1 :: r1) with
      | none => rw [hx] at h; exact absurd h (by simp)
      | some pr =>
        obtain ⟨t, rest⟩ := pr
        rw [hx] at h
        dsimp only at h
        cases hrec : lexAll f rest with
        | none => rw [hrec] at h; exact absurd h (by simp)
        | some ts2 =>
          have hpf_rest := ih rest ts2 hrec
          obtain ⟨p, hp, hne, hnl, hhd⟩ := lex1_spec _ _ _ hx
          have hcs : cs = cs.takeWhile isJsonWs ++ (p ++ rest) := by
            conv_lhs => rw [← List.takeWhile_append_dropWhile (p := isJsonWs) (l := cs)]
            rw [hcs1, hp]
          rw [hcs]
          refine pairFree_append_no_bt _ _ ?_ ?_ ?_
          · intro c hc
            exact isJsonWs_ne_bt c (List.mem_takeWhile_imp hc)
          · exact pairFree_append_no_nl p rest hnl hpf_rest
          · intro c hc
            rw [head?_append_left p rest hne] at hc
            exact (hhd c hc).2

/-- An empty token list means the whole text was JSON whitespace. -/
theorem lexAll_some_nil_ws : ∀ (fuel : Nat) (cs : List Char),
    lexAll fuel cs = some [] → ∀ c ∈ cs, isJsonWs c = true := by
  intro fuel
  cases fuel with
  | zero => intro cs h; exact absurd h (by simp [lexAll.eq_def])
  | succ f =>
    intro cs h
    rw [lexAll.eq_def] at h
    dsimp only at h
    cases hcs1 : cs.dropWhile isJsonWs with
    | nil => exact List.dropWhile_eq_nil_iff.mp hcs1
    | cons c1 r1 =>
      rw [hcs1] at h
      cases hx : lex1 (c1 :: r1) with
      | none => rw [hx] at h; exact absurd h (by simp)
      | some pr =>
        obtain ⟨t, rest⟩ := pr
        rw [hx] at h
        dsimp only at h
        cases hrec : lexAll f rest with
        | none => rw [hrec] at h; exact absurd h (by simp)
        | some ts2 => rw [hrec] at h; exact absurd h (by simp)

/-- Tokenizing the empty text gives the empty token list. -/
theorem lexAll_nil_inv (f : Nat) (ts : List JTok) (h : lexAll f [] = some ts) : ts = [] := by
  cases f with
  | zero => exact absurd h (by simp [lexAll.eq_def])
  | succ f2 =>
    rw [lexAll.eq_def] at h
    simp only [List.dropWhile_nil] at h
    simp only [Option.some.injEq] at h
    exact h.symm

/-- When the first token is an opening brace, the first non-whitespace
character of the text is an opening brace. -/
theorem lexAll_head_lbrace : ∀ (fuel : Nat) (cs : List Char) (ts2 : List JTok),
    lexAll fuel cs = some (JTok.lbrace :: ts2) →
    (cs.dropWhile isJsonWs).head? = some '\x7b' := by
  intro fuel
  cases fuel with
  | zero => intro cs ts2 h; exact absurd h (by simp [lexAll.eq_def])
  | succ f =>
    intro cs ts2 h
    rw [lexAll.eq_def] at h
    dsimp only at h
    cases hcs1 : cs.dropWhile isJsonWs with
    | nil => rw [hcs1] at h; exact absurd h (by simp)
    | cons c1 r1 =>
      rw [hcs1] at h
      cases hx : lex1 (c1 :: r1) with
      | none => rw [hx] at h; exact absurd h (by simp)
      | some pr =>
        obtain ⟨t, rest⟩ := pr
        rw [hx] at h
        dsimp only at h
        cases hrec : lexAll f rest with
        | none => rw [hrec] at h; exact absurd h (by simp)
        | some ts3 =>
          rw [hrec] at h
          simp only [Option.some.injEq, List.cons.injEq] at h
          have ht : t = JTok.lbrace := h.1
          subst ht
          have hinv := lex1_lbrace_inv _ _ hx
          injection hinv with h1 h2
          rw [h1]
          rfl

/-- When the last token is a closing brace and the text does not end in
whitespace, the text's last character is a closing brace. -/
theorem lexAll_last_rbrace : ∀ (fuel : Nat) (cs : List Char) (ts : List JTok),
    lexAll fuel cs = some ts → ts.getLast? = some JTok.rbrace →
    (∀ c, cs.getLast? = some c → isPySpace c = false) →
    cs.getLast? = some '\x7d' := by
  intro fuel
  induction fuel with
  | zero => intro cs ts h; exact absurd h (by simp [lexAll.eq_def])
  | succ f ih =>
    intro cs ts h hlast hnosp
    rw [lexAll.eq_def] at h
    dsimp only at h
    cases hcs1 : cs.dropWhile isJsonWs with
    | nil =>
      rw [hcs1] at h
      simp only [Option.some.injEq] at h
      rw [← h] at hlast
      exact absurd hlast (by simp)
    | cons c1 r1 =>
      rw [hcs1] at h
      cases hx : lex1 (c1 :: r1) with
      | none => rw [hx] at h; exact absurd h (by simp)
      | some pr =>
        obtain ⟨t, rest⟩ := pr
        rw [hx] at h
        dsimp only at h
        cases hrec : lexAll f rest with
        | none => rw [hrec] at h; exact absurd h (by simp)
        | some ts2 =>
          rw [hrec] at h
          simp only [Option.some.injEq] at h
          subst h
          have hcs : cs = cs.takeWhile isJsonWs ++ (c1 :: r1) := by
            conv_lhs => rw [← List.takeWhile_append_dropWhile (p := isJsonWs) (l := cs)]
            rw [hcs1]
          obtain ⟨p, hp, hne, hnl, hhd⟩ := lex1_spec _ _ _ hx
          have hchain : rest ≠ [] → cs.getLast? = rest.getLast? := by
            intro hrne
            rw [hcs]
            rw [List.getLast?_append_of_ne_nil _ (by simp : c1 :: r1 ≠ [])]
            rw [hp]
            exact List.getLast?_append_of_ne_nil _ hrne
          cases ts2 with
          | nil =>
            have ht : t = JTok.rbrace := by
              simp only [List.getLast?_singleton, Option.some.injEq] at hlast
              exact hlast
            subst ht
            have hws := lexAll_some_nil_ws f rest hrec
            have hrest_nil : rest = [] := by
              cases hr : rest with
              | nil => rfl
              | cons x xs =>
                exfalso
                have hrne : rest ≠ [] := by rw [hr]; simp
                obtain ⟨c, hc⟩ := Option.isSome_iff_exists.mp
                  (List.getLast?_isSome.mpr hrne)
                have hmem : c ∈ rest := List.mem_of_mem_getLast? (by simp [hc])
                have hcs_last : cs.getLast? = some c := by
                  rw [hchain hrne, hc]
                have := hnosp c hcs_last
                rw [isJsonWs_pySpace c (hws c hmem)] at this
                exact Bool.noConfusion this
            subst hrest_nil
            have hinv := lex1_rbrace_inv _ _ hx
            rw [hcs, hinv]
            rw [List.getLast?_append_of_ne_nil _ (by simp : ('\x7d' : Char) :: [] ≠ [])]
            rfl
          | cons t2 ts3 =>
            have hlast2 : (t2 :: ts3).getLast? = some JTok.rbrace := by
              rw [List.getLast?_cons_cons] at hlast
              exact hlast
            have hrne : rest ≠ [] := by
              intro hr
              subst hr
              exact List.noConfusion (lexAll_nil_inv f _ hrec)
            have hchain2 := hchain hrne
            rw [hchain2]
            exact ih rest (t2 :: ts3) hrec hlast2
              (fun c hc => hnosp c (by rw [hchain2]; exact hc))

/-- Appending onto a list with a known last element keeps that last element. -/
theorem getLast?_append_some {α : Type} (l1 l2 : List α) (x : α)
    (h : l2.getLast? = some x) : (l1 ++ l2).getLast? = some x := by
  have hne : l2 ≠ [] := by
    intro he
    rw [he] at h
    exact Option.noConfusion h
  rw [List.getLast?_append_of_ne_nil _ hne]
  exact h

/-- Array-tail parses produce array values. -/
theorem parseP_arrTail_arr : ∀ (fuel : Nat) (acc : List JsonValue) (ts : List JTok)
    (v : JsonValue) (rest : List JTok),
    parseP fuel (.arrTail acc) ts = some (v, rest) → ∃ xs, v = .arr xs := by
  intro fuel
  induction fuel with
  | zero => intro acc ts v rest h; exact absurd h (by simp [parseP.eq_def])
  | succ f ih =>
    intro acc ts v rest h
    rw [parseP.eq_def] at h
    dsimp only at h
    split at h
    all_goals try exact Option.noConfusion h
    all_goals try (rename_i heq; exact PMode.noConfusion heq)
    · split at h
      · exact ih _ _ _ _ h
      · exact Option.noConfusion h
    · simp only [Option.some.injEq, Prod.mk.injEq] at h
      exact ⟨_, h.1.symm⟩

/-- Object-member and object-tail parses produce object values. -/
theorem parseP_obj_shape : ∀ (fuel : Nat),
    (∀ (ts : List JTok) (acc : List (String × JsonValue)) (v : JsonValue) (rest : List JTok),
      parseP fuel (.objMember acc) ts = some (v, rest) → ∃ kvs, v = .obj kvs) ∧
    (∀ (ts : List JTok) (acc : List (String × JsonValue)) (v : JsonValue) (rest : List JTok),
      parseP fuel (.objTail acc) ts = some (v, rest) → ∃ kvs, v = .obj kvs) := by
  intro fuel
  induction fuel with
  | zero =>
    constructor <;> (intro ts acc v rest h; exact absurd h (by simp [parseP.eq_def]))
  | succ f ih =>
    constructor
    · intro ts acc v rest h
      rw [parseP.eq_def] at h
      dsimp only at h
      split at h
      all_goals try exact Option.noConfusion h
      all_goals try (rename_i heq; exact PMode.noConfusion heq)
      split at h
      · exact ih.2 _ _ _ _ h
      · exact Option.noConfusion h
    · intro ts acc v rest h
      rw [parseP.eq_def] at h
      dsimp only at h
      split at h
      all_goals try exact Option.noConfusion h
      all_goals try (rename_i heq; exact PMode.noConfusion heq)
      · exact ih.1 _ _ _ _ h
      · simp only [Option.some.injEq, Prod.mk.injEq] at h
        exact ⟨_, h.1.symm⟩

/-- A value parse returning an object starts at an opening brace token. -/
theorem parseP_value_obj_head (fuel : Nat) (ts : List JTok)
    (kvs : List (String × JsonValue)) (rest : List JTok)
    (h : parseP fuel .value ts = some (.obj kvs, rest)) :
    ∃ r, ts = JTok.lbrace :: r := by
  cases fuel with
  | zero => exact absurd h (by simp [parseP.eq_def])
  | succ f =>
    rw [parseP.eq_def] at h
    dsimp only at h
    split at h
    all_goals try exact Option.noConfusion h
    all_goals try (rename_i heq; exact PMode.noConfusion heq)
    all_goals try (rw [Option.some.injEq, Prod.mk.injEq] at h; exact JsonValue.noConfusion h.1)
    · split at h
      · obtain ⟨xs, hxs⟩ := parseP_arrTail_arr f _ _ _ _ h
        exact absurd hxs (by simp)
      · exact Option.noConfusion h
    · exact ⟨_, rfl⟩
    · exact ⟨_, rfl⟩

/-- A successful parse consumes a nonempty token prefix whose last token is the
closing token of the produced value. -/
theorem parseP_consumed : ∀ (fuel : Nat) (mode : PMode) (ts : List JTok)
    (v : JsonValue) (rest : List JTok),
    parseP fuel mode ts = some (v, rest) →
    ∃ pre, ts = pre ++ rest ∧ pre.getLast? = some (selfTok v) := by
  intro fuel
  induction fuel with
  | zero => intro mode ts v rest h; exact absurd h (by simp [parseP.eq_def])
  | succ f ih =>
    intro mode ts v rest h
    rw [parseP.eq_def] at h
    dsimp only at h
    split at h
    · simp only [Option.some.injEq, Prod.mk.injEq] at h
      refine ⟨[selfTok v], ?_, by simp⟩
      rw [← h.1, ← h.2]
      rfl
    · simp only [Option.some.injEq, Prod.mk.injEq] at h
      refine ⟨[selfTok v], ?_, by simp⟩
      rw [← h.1, ← h.2]
      rfl
    · simp only [Option.some.injEq, Prod.mk.injEq] at h
      refine ⟨[selfTok v], ?_, by simp⟩
      rw [← h.1, ← h.2]
      rfl
    · simp only [Option.some.injEq, Prod.mk.injEq] at h
      refine ⟨[selfTok v], ?_, by simp⟩
      rw [← h.1, ← h.2]
      rfl
    · simp only [Option.some.injEq, Prod.mk.injEq] at h
      refine ⟨[selfTok v], ?_, by simp⟩
      rw [← h.1, ← h.2]
      rfl
    · simp only [Option.some.injEq, Prod.mk.injEq] at h
      refine ⟨[JTok.lbrack, selfTok v], ?_, by simp⟩
      rw [← h.1, ← h.2]
      rfl
    · split at h
      · rename_i v1 r1 hinner
        obtain ⟨pre1, hpre1, hl1⟩ := ih _ _ _ _ hinner
        obtain ⟨pre2, hpre2, hl2⟩ := ih _ _ _ _ h
        refine ⟨JTok.lbrack :: (pre1 ++ pre2), ?_, ?_⟩
        · simp [hpre1, hpre2]
        · exact getLast?_append_some (JTok.lbrack :: pre1) pre2 _ hl2
      · exact Option.noConfusion h
    · simp only [Option.some.injEq, Prod.mk.injEq] at h
      refine ⟨[JTok.lbrace, selfTok v], ?_, by simp⟩
      rw [← h.1, ← h.2]
      rfl
    · obtain ⟨pre1, hpre1, hl1⟩ := ih _ _ _ _ h
      refine ⟨JTok.lbrace :: pre1, ?_, ?_⟩
      · simp [hpre1]
      · exact getLast?_append_some [JTok.lbrace] pre1 _ hl1
    · split at h
      · rename_i v1 r1 hinner
        obtain ⟨pre1, hpre1, hl1⟩ := ih _ _ _ _ hinner
        obtain ⟨pre2, hpre2, hl2⟩ := ih _ _ _ _ h
        refine ⟨JTok.comma :: (pre1 ++ pre2), ?_, ?_⟩
        · simp [hpre1, hpre2]
        · exact getLast?_append_some (JTok.comma :: pre1) pre2 _ hl2
      · exact Option.noConfusion h
    · simp only [Option.some.injEq, Prod.mk.injEq] at h
      refine ⟨[selfTok v], ?_, by simp⟩
      rw [← h.1, ← h.2]
      rfl
    · rename_i acc k r
      split at h
      · rename_i v1 r1 hinner
        obtain ⟨pre1, hpre1, hl1⟩ := ih _ _ _ _ hinner
        obtain ⟨pre2, hpre2, hl2⟩ := ih _ _ _ _ h
        refine ⟨JTok.jstr k :: JTok.colon :: (pre1 ++ pre2), ?_, ?_⟩
        · simp [hpre1, hpre2]
        · exact getLast?_append_some (JTok.jstr k :: JTok.colon :: pre1) pre2 _ hl2
      · exact Option.noConfusion h
    · obtain ⟨pre1, hpre1, hl1⟩ := ih _ _ _ _ h
      refine ⟨JTok.comma :: pre1, ?_, ?_⟩
      · simp [hpre1]
      · exact getLast?_append_some [JTok.comma] pre1 _ hl1
    · simp only [Option.some.injEq, Prod.mk.injEq] at h
      refine ⟨[selfTok v], ?_, by simp⟩
      rw [← h.1, ← h.2]
      rfl
    · exact Option.noConfusion h

/-- A strip-invariant character list does not start with Python whitespace. -/
theorem strip_self_head (cs : List Char) (h : pyStripChars cs = cs) :
    ∀ c, cs.head? = some c → isPySpace c = false := by
  intro c hc
  by_contra hsp
  rw [Bool.not_eq_false] at hsp
  cases cs with
  | nil => exact absurd hc (by simp)
  | cons a rest =>
    have ha : a = c := by simpa using hc
    subst ha
    have h1 : (pyStripChars (a :: rest)).length ≤ ((a :: rest).dropWhile isPySpace).length := by
      unfold pyStripChars
      rw [List.length_reverse]
      calc (((a :: rest).dropWhile isPySpace).reverse.dropWhile isPySpace).length
          ≤ ((a :: rest).dropWhile isPySpace).reverse.length := length_dropWhile_le _ _
        _ = ((a :: rest).dropWhile isPySpace).length := List.length_reverse _
    rw [h] at h1
    rw [List.dropWhile_cons_of_pos hsp] at h1
    have h2 : (rest.dropWhile isPySpace).length ≤ rest.length := length_dropWhile_le _ _
    simp only [List.length_cons] at h1
    omega

/-- A strip-invariant character list does not end with Python whitespace. -/
theorem strip_self_last (cs : List Char) (h : pyStripChars cs = cs) :
    ∀ c, cs.getLast? = some c → isPySpace c = false := by
  intro c hc
  by_contra hsp
  rw [Bool.not_eq_false] at hsp
  cases hY : cs.dropWhile isPySpace with
  | nil =>
    have hnil : pyStripChars cs = [] := by
      unfold pyStripChars
      rw [hY]
      rfl
    rw [h] at hnil
    rw [hnil] at hc
    exact Option.noConfusion hc
  | cons b bs =>
    have hYlast : (b :: bs).getLast? = some c := by
      have hsplit : cs.takeWhile isPySpace ++ (b :: bs) = cs := by
        rw [← hY]; exact List.takeWhile_append_dropWhile isPySpace cs
      rw [← hsplit] at hc
      rw [List.getLast?_append_of_ne_nil _ (by simp)] at hc
      exact hc
    have hrevh : (b :: bs).reverse.head? = some c := by
      rw [List.head?_reverse]; exact hYlast
    obtain ⟨zs, hzs⟩ : ∃ zs, (b :: bs).reverse = c :: zs := by
      cases hr : (b :: bs).reverse with
      | nil => rw [hr] at hrevh; exact absurd hrevh (by simp)
      | cons d ds =>
        rw [hr] at hrevh
        have : d = c := by simpa using hrevh
        exact ⟨ds, by rw [this]⟩
    have h1 : (pyStripChars cs).length < (b :: bs).length := by
      unfold pyStripChars
      rw [hY, List.length_reverse, hzs, List.dropWhile_cons_of_pos hsp]
      have := length_dropWhile_le isPySpace zs
      have hlz : zs.length + 1 = (b :: bs).length := by
        rw [← List.length_reverse (b :: bs), hzs]; rfl
      omega
    have h2 : (b :: bs).length ≤ cs.length := by
      rw [← hY]; exact length_dropWhile_le _ _
    rw [h] at h1
    omega

/-- Lists that neither start nor end with Python whitespace are fixed by
`pyStripChars`. -/
theorem pyStripChars_self_of (cs : List Char)
    (hh : ∀ c, cs.head? = some c → isPySpace c = false)
    (hl : ∀ c, cs.getLast? = some c → isPySpace c = false) :
    pyStripChars cs = cs := by
  have h1 : cs.dropWhile isPySpace = cs := by
    cases cs with
    | nil => rfl
    | cons a rest =>
      rw [List.dropWhile_cons_of_neg (by simp [hh a rfl])]
  unfold pyStripChars
  rw [h1]
  have h2 : cs.reverse.dropWhile isPySpace = cs.reverse := by
    cases hr : cs.reverse with
    | nil => rfl
    | cons a rest =>
      have hla : cs.getLast? = some a := by rw [← List.head?_reverse, hr]; rfl
      rw [List.dropWhile_cons_of_neg (by simp [hl a hla])]
  rw [h2, List.reverse_reverse]

/-- Strings that neither start nor end with Python whitespace are fixed by
`pyStrip`. -/
theorem pyStrip_self_of (s : String)
    (hh : ∀ c, s.data.head? = some c → isPySpace c = false)
    (hl : ∀ c, s.data.getLast? = some c → isPySpace c = false) :
    pyStrip s = s := by
  unfold pyStrip
  rw [pyStripChars_self_of s.data hh hl]

/-- The fence-wrapped string is fixed by `pyStrip`: it starts and ends with a
backtick. -/
theorem pyStrip_fenceWrap (j : String) : pyStrip (fenceWrap j) = fenceWrap j := by
  have hdata : (fenceWrap j).data = fenceOpenChars ++ (j.data ++ fenceCloseChars) := by
    show ("```json\n" ++ j ++ "\n```").data = _
    simp [fenceOpenChars, fenceCloseChars]
  apply pyStrip_self_of
  · intro c hc
    rw [hdata, head?_append_left _ _ (by decide)] at hc
    rw [show fenceOpenChars.head? = some '`' from by decide] at hc
    obtain rfl : '`' = c := by simpa using hc
    decide
  · intro c hc
    have h9 : (fenceOpenChars ++ (j.data ++ fenceCloseChars)).getLast? = some '`' :=
      getLast?_append_some _ _ _
        (getLast?_append_some j.data fenceCloseChars '`' (by decide))
    rw [hdata, h9] at hc
    obtain rfl : '`' = c := by simpa using hc
    decide

/-- On a pair-free body, the content extraction of the fence-wrapped reply
returns exactly the body. -/
theorem extract_json_content_wrap (j : String) (hpf : pairFree j.data = true) :
    extract_json_content (fenceWrap j) = j := by
  have hdata : (fenceWrap j).data = fenceOpenChars ++ (j.data ++ fenceCloseChars) := by
    show ("```json\n" ++ j ++ "\n```").data = _
    simp [fenceOpenChars, fenceCloseChars]
  simp only [extract_json_content]
  rw [hdata, fence_match_wrap j.data hpf]

/-- A pair-free reply that starts with an opening brace and ends with a
closing brace is returned whole by the content extraction. -/
theorem extract_json_content_self (j : String) (hpf : pairFree j.data = true)
    (hh : j.data.head? = some '\x7b') (hl : j.data.getLast? = some '\x7d') :
    extract_json_content j = j := by
  have hfm : fence_match j.data = none := fence_match_none j.data hpf
  have hfind : pyFindChar j.data '\x7b' = some 0 := by
    cases hd : j.data with
    | nil => rw [hd] at hh; exact absurd hh (by simp)
    | cons c rest =>
      rw [hd] at hh
      have hc : c = '\x7b' := by simpa using hh
      subst hc
      simp [pyFindChar, findSub, startsWithChars]
  have hrfind : pyRFindChar j.data '\x7d' = some (j.data.length - 1) := by
    have hrev : j.data.reverse.head? = some '\x7d' := by
      rw [List.head?_reverse]; exact hl
    cases hr : j.data.reverse with
    | nil => rw [hr] at hrev; exact absurd hrev (by simp)
    | cons c rest =>
      rw [hr] at hrev
      have hc : c = '\x7d' := by simpa using hrev
      subst hc
      simp [pyRFindChar, hr, findSub, startsWithChars]
  have hlen : 0 < j.data.length := by
    cases hd : j.data with
    | nil => rw [hd] at hh; exact absurd hh (by simp)
    | cons c rest => exact Nat.succ_pos _
  have hsp : j.data.length - 1 + 1 = j.data.length := Nat.succ_pred_eq_of_pos hlen
  simp only [extract_json_content]
  rw [hfm]
  dsimp only
  rw [hfind, hrfind]
  dsimp only
  rw [hsp, if_pos hlen, List.drop_zero, Nat.sub_zero, List.take_length]

/-- A strip-invariant string that `json.loads` parses to an object is
pair-free, starts with an opening brace, and ends with a closing brace. -/
theorem json_loads_obj_shape (j : String) (kvs : List (String × JsonValue))
    (hstrip : pyStrip j = j) (hload : json_loads j = some (JsonValue.obj kvs)) :
    pairFree j.data = true ∧ j.data.head? = some '\x7b' ∧
      j.data.getLast? = some '\x7d' := by
  have hsc : pyStripChars j.data = j.data := congrArg String.data hstrip
  unfold json_loads at hload
  cases hlex : lexAll (j.data.length + 1) j.data with
  | none => rw [hlex] at hload; exact Option.noConfusion hload
  | some ts =>
    rw [hlex] at hload
    dsimp only at hload
    cases hp : parseP (ts.length + 1) PMode.value ts with
    | none => rw [hp] at hload; exact Option.noConfusion hload
    | some pr =>
      obtain ⟨v, rest⟩ := pr
      rw [hp] at hload
      cases rest with
      | cons t rs => dsimp only at hload; exact Option.noConfusion hload
      | nil =>
        dsimp only at hload
        have hv : v = JsonValue.obj kvs := by simpa using hload
        subst hv
        have hpf := lexAll_pairFree _ _ _ hlex
        obtain ⟨r, hts⟩ := parseP_value_obj_head (ts.length + 1) ts kvs [] hp
        have hlex2 := hlex
        rw [hts] at hlex2
        have hhead0 : (j.data.dropWhile isJsonWs).head? = some '\x7b' :=
          lexAll_head_lbrace (j.data.length + 1) j.data r hlex2
        have hh : j.data.head? = some '\x7b' := by
          cases hd : j.data with
          | nil =>
            rw [hd] at hlex
            have hnil := lexAll_nil_inv _ _ hlex
            rw [hnil] at hts
            exact absurd hts (by simp)
          | cons c cs =>
            have hcsp : isPySpace c = false :=
              strip_self_head j.data hsc c (by rw [hd]; rfl)
            have hws : isJsonWs c = false := by
              cases hjw : isJsonWs c with
              | false => rfl
              | true => rw [isJsonWs_pySpace c hjw] at hcsp; exact Bool.noConfusion hcsp
            rw [hd] at hhead0
            rw [List.dropWhile_cons_of_neg (by simp [hws])] at hhead0
            exact hhead0
        have htlast : ts.getLast? = some JTok.rbrace := by
          obtain ⟨pre, hpre, hplast⟩ := parseP_consumed (ts.length + 1) PMode.value ts _ [] hp
          rw [hpre, List.append_nil]
          exact hplast
        have hl : j.data.getLast? = some '\x7d' :=
          lexAll_last_rbrace (j.data.length + 1) j.data ts hlex htlast
            (strip_self_last j.data hsc)
        exact ⟨hpf, hh, hl⟩

/-- C4 (amended): for every strip-invariant JSON body j that json.loads parses
to a JSON object, feeding _parse_grading_response the fenced reply
"```json\n" + j + "\n```" yields the same result as feeding it j directly. -/
theorem c4_fenced_equiv (j : String) (total_marks : ℚ) (kvs : List (String × JsonValue))
    (hstrip : pyStrip j = j) (hload : json_loads j = some (JsonValue.obj kvs)) :
    _parse_grading_response (fenceWrap j) total_marks =
      _parse_grading_response j total_marks := by
  obtain ⟨hpf, hh, hl⟩ := json_loads_obj_shape j kvs hstrip hload
  have hext : extract_json_content j = j := extract_json_content_self j hpf hh hl
  have hext2 : extract_json_content (fenceWrap j) = j := extract_json_content_wrap j hpf
  have hstrip2 : pyStrip (fenceWrap j) = fenceWrap j := pyStrip_fenceWrap j
  simp only [_parse_grading_response, hstrip2, hstrip, hext2, hext, hload]

/-- Witness for C4: a concrete strip-invariant object body on which the fenced
and unwrapped replies normalize identically. -/
theorem c4_fenced_equiv_witness :
    pyStrip "\x7b\"total_score\": 5\x7d" = "\x7b\"total_score\": 5\x7d" ∧
    (json_loads "\x7b\"total_score\": 5\x7d").isSome = true ∧
    _parse_grading_response (fenceWrap "\x7b\"total_score\": 5\x7d") 10 =
      _parse_grading_response "\x7b\"total_score\": 5\x7d" 10 :=
  ⟨by decide, by decide, c4_fenced_equiv _ 10 _ (by decide) (by rfl)⟩

/-- Counterexample to the unrestricted C4: a reply body that is valid JSON but
parses to an array normalizes differently fenced and unwrapped, because the
unwrapped path slices from the first opening brace to the last closing brace
and so parses only the inner object. -/
theorem c4_counterexample :
    (json_loads "[\x7b\"a\": 1\x7d]").isSome = true ∧
    (_parse_grading_response "```json\n[\x7b\"a\": 1\x7d]\n```" 10).feedback ≠
      (_parse_grading_response "[\x7b\"a\": 1\x7d]" 10).feedback :=
  ⟨by decide, by decide⟩
